import Mathlib

/-!
Verification development for the `mohyung` snapshot tool: a content-addressed
packaging engine that packs a `node_modules` dependency tree into a single
SQLite database file (`pack`), restores it (`unpack` / `extractFiles`), and
diffs it against the current tree (`status`).

The embedding below translates the TypeScript source into pure Lean:

* `Store` models the SQLite tables of `src/core/store.ts` as association
  lists; each SQL statement becomes an explicit list operation with the
  statement's conflict semantics (`INSERT OR IGNORE`, `ON CONFLICT DO
  UPDATE`, `RETURNING id`).
* `packFiles` models the transaction body of `src/commands/pack.ts`
  (the `packFiles` closure), parameterised by the external collaborators
  SHA-256 (`hashB`) and gzip (`compress`): byte-level contracts of
  `node:crypto` / `node:zlib` enter as hypotheses.
* `extractFiles` models `src/core/extractor.ts`, including the bounded
  decompressed-blob cache with its 100 KiB threshold.
* `statusRun` models `src/commands/status.ts`.
* `FsNode`, `findPackageDirs`, `findPnpmPackageDirs`, `scanNodeModules`
  model `src/core/scanner.ts` over an explicit filesystem tree; a `readdir`
  on a non-directory is modelled as `Option.none` (the thrown `ENOTDIR`).

Bytes are `List Nat`; digests are `String` (the `TEXT` key of the `blobs`
table). A file's bytes stand in for its `absolutePath` + `readFileSync`:
the filesystem is assumed stable between scan and pack.
-/

namespace Mohyung

/-- Byte sequences (Node `Buffer` contents). -/
abbrev Bytes := List Nat

/-! ### Store rows (`src/core/store.ts` schema) -/

/-- A row of the `packages` table: `id INTEGER PRIMARY KEY AUTOINCREMENT`,
`UNIQUE(name, version, path)`. -/
structure PkgRow where
  id : Nat
  name : String
  version : String
  path : String
deriving Repr, DecidableEq

/-- A row of the `blobs` table: `hash TEXT PRIMARY KEY`, compressed
`content`, `original_size`, `compressed_size`. -/
structure BlobRow where
  hash : String
  content : Bytes
  originalSize : Nat
  compressedSize : Nat
deriving Repr, DecidableEq

/-- A row of the `files` table: `UNIQUE(package_id, relative_path)`,
`blob_hash` referencing `blobs`, POSIX `mode`, `mtime`. -/
structure FileRow where
  packageId : Nat
  relativePath : String
  blobHash : String
  mode : Nat
  mtime : Nat
deriving Repr, DecidableEq

/-- A `files` row joined with its package's `path` (the row shape returned
by `Store.getAllFiles`). -/
structure JoinedFileRow where
  packageId : Nat
  relativePath : String
  blobHash : String
  mode : Nat
  mtime : Nat
  packagePath : String
deriving Repr, DecidableEq

/-- The mutable table state of `Store`.  `nextId` models the
`AUTOINCREMENT` counter of `packages.id`.  Row order is insertion order,
matching SQLite's storage order for these append-only workloads. -/
structure Store where
  packages : List PkgRow
  blobs : List BlobRow
  files : List FileRow
  nextId : Nat
deriving Repr, DecidableEq

namespace Store

/-- The store created on a fresh database file (tables empty,
`AUTOINCREMENT` at 1). -/
def empty : Store := ⟨[], [], [], 1⟩

/-- Models `insertPackage`: `INSERT INTO packages … ON CONFLICT(name, version,
path) DO UPDATE SET name = name RETURNING id`.  On conflict the row is
rewritten with its own `name` (no visible change) and its `id` returned;
otherwise a fresh row is appended with the next `AUTOINCREMENT` id. -/
def insertPackage (s : Store) (name version path : String) : Nat × Store :=
  match s.packages.find? (fun r =>
      r.name == name && r.version == version && r.path == path) with
  | some r => (r.id, s)
  | none =>
      (s.nextId,
        { s with
            packages := s.packages ++ [⟨s.nextId, name, version, path⟩]
            nextId := s.nextId + 1 })

/-- Models `hasBlob`: `SELECT 1 FROM blobs WHERE hash = ?` is non-empty. -/
def hasBlob (s : Store) (hash : String) : Bool :=
  s.blobs.any (fun r => r.hash == hash)

/-- Models `insertBlob`: `INSERT OR IGNORE INTO blobs …` — a row whose `hash`
primary key already exists is ignored. -/
def insertBlob (s : Store) (b : BlobRow) : Store :=
  if s.blobs.any (fun r => r.hash == b.hash) then s
  else { s with blobs := s.blobs ++ [b] }

/-- Models `getBlob`: `SELECT content FROM blobs WHERE hash = ?` (or null). -/
def getBlob (s : Store) (hash : String) : Option Bytes :=
  (s.blobs.find? (fun r => r.hash == hash)).map (fun r => r.content)

/-- Models `insertFile`: `INSERT INTO files … ON CONFLICT(package_id,
relative_path) DO UPDATE SET blob_hash = excluded.blob_hash, mode =
excluded.mode, mtime = excluded.mtime`. -/
def insertFile (s : Store) (f : FileRow) : Store :=
  if s.files.any (fun r =>
      r.packageId == f.packageId && r.relativePath == f.relativePath) then
    { s with
        files := s.files.map (fun r =>
          if r.packageId == f.packageId && r.relativePath == f.relativePath
          then { r with blobHash := f.blobHash, mode := f.mode, mtime := f.mtime }
          else r) }
  else { s with files := s.files ++ [f] }

/-- Models `getAllFiles`: `SELECT f.*, p.path AS package_path FROM files f JOIN
packages p ON f.package_id = p.id`.  The inner join drops a file whose
`package_id` matches no package row. -/
def getAllFiles (s : Store) : List JoinedFileRow :=
  s.files.filterMap (fun f =>
    (s.packages.find? (fun p => p.id == f.packageId)).map (fun p =>
      ⟨f.packageId, f.relativePath, f.blobHash, f.mode, f.mtime, p.path⟩))

/-- Models `getTotalFileCount`: `SELECT COUNT(*) FROM files`. -/
def getTotalFileCount (s : Store) : Nat := s.files.length

end Store

/-! ### Scan-result shapes (`src/types.ts`, `src/core/scanner.ts`) -/

/-- A scanned regular file (`FileEntry`).  The source record carries an
`absolutePath` that pack later reads with `readFileSync`; here `content`
carries those bytes directly, and `size` is the `stat` size. -/
structure FileEntry where
  relativePath : String
  content : Bytes
  mode : Nat
  size : Nat
  mtime : Nat
deriving Repr, DecidableEq

/-- A scanned package with its files (`PackageInfo & { files }`). -/
structure PackageWithFiles where
  name : String
  version : String
  path : String
  files : List FileEntry
deriving Repr, DecidableEq

/-- Models `ScanResult` of `src/core/scanner.ts`. -/
structure ScanResult where
  packages : List PackageWithFiles
  totalFiles : Nat
  totalSize : Nat
deriving Repr, DecidableEq

/-! ### Scanner (`src/core/scanner.ts`)

The dependency tree is an explicit filesystem tree.  `readdir` on a
non-directory throws `ENOTDIR`; that failure is modelled as `Option.none`
(`readdirD`), and scanner functions that can hit it return `Option`. -/

/-- A filesystem node: a regular file (with its `stat` mode, bytes and
mtime) or a directory with named children in `readdir` order. -/
inductive FsNode where
  | file (mode : Nat) (content : Bytes) (mtime : Nat) : FsNode
  | dir (children : List (String × FsNode)) : FsNode
deriving Repr

/-- Models `readdir`: the children of a directory; throws (`none`) on a file. -/
def readdirD : FsNode → Option (List (String × FsNode))
  | FsNode.file _ _ _ => none
  | FsNode.dir ch => some ch

/-- Resolve a named child among directory entries (first match, the way a
real directory has unique names). -/
def lookupChild (children : List (String × FsNode)) (name : String) :
    Option FsNode :=
  (children.find? (fun p => p.1 == name)).map (fun p => p.2)

/-- Models `isPnpmStructure`: `existsSync(join(nodeModulesPath, '.pnpm'))` — an
entry of any kind named `.pnpm` counts. -/
def isPnpmStructure (root : List (String × FsNode)) : Bool :=
  (lookupChild root ".pnpm").isSome

/-- Models `String.startsWith`, computed on the character list (a
reduction-friendly equivalent of the byte-position library routine). -/
def strStartsWith (s pre : String) : Bool :=
  pre.data.isPrefixOf s.data

/-- The fields a manifest may provide; `none` models an absent field. -/
structure PkgManifest where
  name : Option String
  version : Option String
deriving Repr, DecidableEq

/-- JavaScript `x || d` for a string-or-absent manifest field: absent and
the empty string (both falsy) fall back to the default. -/
def jsOrString : Option String → String → String
  | some s, d => if s = "" then d else s
  | none, d => d

/-- Models `parsePackageJson`: read `<pkgDir>/package.json` and parse it;
`none` models the caught read/parse exception (missing file, unreadable
entry, malformed JSON).  `parseJson` is the external `JSON.parse`. -/
def parsePackageJson (parseJson : Bytes → Option PkgManifest)
    (pkgDir : FsNode) : Option (String × String) :=
  match pkgDir with
  | FsNode.file _ _ _ => none
  | FsNode.dir ch =>
      match lookupChild ch "package.json" with
      | none => none
      | some (FsNode.dir _) => none
      | some (FsNode.file _ content _) =>
          match parseJson content with
          | none => none
          | some m =>
              some (jsOrString m.name "unknown", jsOrString m.version "0.0.0")

/-- Models `relative(baseDir, fullPath)` for a child named `name` under the
relative prefix `pre` of the walk. -/
def joinRel (pre name : String) : String :=
  if pre = "" then name else pre ++ "/" ++ name

/-- Models `walkDir`: recursively collect every regular file under a directory's
entries, in `readdir` order, expanding subdirectories in place. -/
def walkChildren (pre : String) : List (String × FsNode) → List FileEntry
  | [] => []
  | (name, FsNode.file mode content mtime) :: rest =>
      ⟨joinRel pre name, content, mode, content.length, mtime⟩
        :: walkChildren pre rest
  | (name, FsNode.dir ch) :: rest =>
      walkChildren (joinRel pre name) ch ++ walkChildren pre rest

/-- Models `walkDir(pkgPath, pkgPath)` on a package node. -/
def walkNode : FsNode → List FileEntry
  | FsNode.file _ _ _ => []
  | FsNode.dir ch => walkChildren "" ch

/-- The scoped branch of `findPackageDirs`: the directory children of an
`@scope` directory, each a package at `"<scope>/<name>"`. -/
def scopedChildren (scopeName : String) (ch : List (String × FsNode)) :
    List (FsNode × String) :=
  ch.filterMap (fun p =>
    match p.2 with
    | FsNode.dir cch => some (FsNode.dir cch, scopeName ++ "/" ++ p.1)
    | FsNode.file _ _ _ => none)

/-- Models `findPackageDirs` (flat layout): iterate the root's entries, skipping
non-directories and `.bin`/`.cache`/`.pnpm`; an `@`-prefixed directory
contributes its directory children as scoped packages. -/
def findPackageDirs : List (String × FsNode) → List (FsNode × String)
  | [] => []
  | (_, FsNode.file _ _ _) :: rest => findPackageDirs rest
  | (name, FsNode.dir ch) :: rest =>
      if name == ".bin" || name == ".cache" || name == ".pnpm" then
        findPackageDirs rest
      else if strStartsWith name "@" then
        scopedChildren name ch ++ findPackageDirs rest
      else
        (FsNode.dir ch, name) :: findPackageDirs rest

/-- The inner `node_modules` scan of one `.pnpm/<entry>`: directory
entries other than `.bin`, scoped directories expanded one level, with
`relativePath` the full chain `".pnpm/<entry>/node_modules/<pkg>"`
(scoped: `"/<scope-child>"` appended). -/
def pnpmInnerEntries (entryName : String) :
    List (String × FsNode) → List (FsNode × String)
  | [] => []
  | (_, FsNode.file _ _ _) :: rest => pnpmInnerEntries entryName rest
  | (innerName, FsNode.dir ch) :: rest =>
      if innerName == ".bin" then pnpmInnerEntries entryName rest
      else if strStartsWith innerName "@" then
        (ch.filterMap (fun p =>
            match p.2 with
            | FsNode.dir cch =>
                some (FsNode.dir cch,
                  ".pnpm/" ++ entryName ++ "/node_modules/" ++ innerName
                    ++ "/" ++ p.1)
            | FsNode.file _ _ _ => none))
          ++ pnpmInnerEntries entryName rest
      else
        (FsNode.dir ch, ".pnpm/" ++ entryName ++ "/node_modules/" ++ innerName)
          :: pnpmInnerEntries entryName rest

/-- One `.pnpm` entry of `findPnpmPackageDirs`: skip non-directories,
dotted names and `node_modules`; when `<entry>/node_modules` exists,
`readdir` it (which throws — `none` — if it is not a directory) and scan
its entries. -/
def findPnpmEntry (entryName : String) (node : FsNode) :
    Option (List (FsNode × String)) :=
  match node with
  | FsNode.file _ _ _ => some []
  | FsNode.dir ch =>
      if entryName == "node_modules" || strStartsWith entryName "." then some []
      else
        match lookupChild ch "node_modules" with
        | none => some []
        | some inner =>
            match readdirD inner with
            | none => none
            | some innerCh => some (pnpmInnerEntries entryName innerCh)

/-- The loop of `findPnpmPackageDirs` over the entries of `.pnpm`. -/
def findPnpmEntries : List (String × FsNode) → Option (List (FsNode × String))
  | [] => some []
  | (name, node) :: rest => do
      let xs ← findPnpmEntry name node
      let ys ← findPnpmEntries rest
      pure (xs ++ ys)

/-- Models `findPnpmPackageDirs`: `readdir(join(nodeModulesPath, '.pnpm'))` —
which throws (`none`) when `.pnpm` is absent or not a directory — then
scan each entry. -/
def findPnpmPackageDirs (root : List (String × FsNode)) :
    Option (List (FsNode × String)) :=
  match lookupChild root ".pnpm" with
  | none => none
  | some pnpmNode =>
      match readdirD pnpmNode with
      | none => none
      | some entries => findPnpmEntries entries

/-- The package-directory collection step of `scanNodeModules`: the pnpm
enumeration when `isPnpmStructure`, the flat enumeration otherwise. -/
def scanPackageDirs (root : List (String × FsNode)) :
    Option (List (FsNode × String)) :=
  if isPnpmStructure root then findPnpmPackageDirs root
  else some (findPackageDirs root)

/-- One iteration of the `scanPackages` loop: parse the manifest (skipping
the package silently on failure) and walk the package directory. -/
def scanPackage (parseJson : Bytes → Option PkgManifest)
    (d : FsNode × String) : Option PackageWithFiles :=
  match parsePackageJson parseJson d.1 with
  | none => none
  | some nv => some ⟨nv.1, nv.2, d.2, walkNode d.1⟩

/-- Models `scanNodeModules`: collect package directories for the detected
layout, then scan each; `totalFiles` / `totalSize` accumulate over the
packages actually emitted. -/
def scanNodeModules (parseJson : Bytes → Option PkgManifest)
    (root : List (String × FsNode)) : Option ScanResult :=
  (scanPackageDirs root).map (fun dirs =>
    let packages := dirs.filterMap (scanPackage parseJson)
    { packages := packages
      totalFiles := (packages.map (fun p => p.files.length)).sum
      totalSize := (packages.map (fun p => (p.files.map (fun f => f.size)).sum)).sum })

/-! ### Packer (`src/commands/pack.ts`, the `packFiles` transaction body)

`hashB` models `hashBuffer` of `src/core/hasher.ts` (SHA-256, hex) and
`compress` models `compress` of `src/utils/compression.ts` (gzip at the
chosen level); both are external library calls, so they are parameters. -/

/-- One iteration of the inner `for (const file of pkg.files)` loop of
`packFiles`: read, hash, insert blob unless present (else count a
deduplication), then insert the file row. -/
def packOneFile (hashB : Bytes → String) (compress : Bytes → Bytes)
    (packageId : Nat) (acc : Store × Nat) (file : FileEntry) : Store × Nat :=
  let s := acc.1
  let dedup := acc.2
  let hash := hashB file.content
  let (s, dedup) :=
    if s.hasBlob hash then (s, dedup + 1)
    else (s.insertBlob
        ⟨hash, compress file.content, file.content.length,
          (compress file.content).length⟩, dedup)
  (s.insertFile ⟨packageId, file.relativePath, hash, file.mode, file.mtime⟩,
    dedup)

/-- One iteration of the outer `for (const pkg of scanResult.packages)`
loop of `packFiles`: insert the package, then pack its files. -/
def packOnePackage (hashB : Bytes → String) (compress : Bytes → Bytes)
    (acc : Store × Nat) (pkg : PackageWithFiles) : Store × Nat :=
  let inserted := acc.1.insertPackage pkg.name pkg.version pkg.path
  pkg.files.foldl (packOneFile hashB compress inserted.1) (inserted.2, acc.2)

/-- The `packFiles` transaction body run over a fresh store (pack deletes
any existing database file first), returning the final store and the
`deduplicatedCount`. -/
def packFiles (hashB : Bytes → String) (compress : Bytes → Bytes)
    (packages : List PackageWithFiles) : Store × Nat :=
  packages.foldl (packOnePackage hashB compress) (Store.empty, 0)

/-! ### Extractor (`src/core/extractor.ts`) -/

/-- A `writeFile` performed by the extractor: the target path, the bytes
written, and the `chmod` argument (`mode & 0o777`) when `file.mode` is
truthy (`none` when no `chmod` is attempted). -/
structure WriteOp where
  path : String
  content : Bytes
  chmodTo : Option Nat
deriving Repr, DecidableEq

/-- The result record of `extractFiles`. -/
structure ExtractResult where
  totalFiles : Nat
  totalSize : Nat
  writes : List WriteOp
deriving Repr, DecidableEq

/-- Models `getContent`: consult the `blobCache`, else `getBlob` + `decompress`,
caching the decompressed bytes only when shorter than 100 KiB.  Returns
the content (or `none` when the blob is missing) and the updated cache. -/
def getContent (decompress : Bytes → Bytes) (s : Store)
    (cache : List (String × Bytes)) (blobHash : String) :
    Option Bytes × List (String × Bytes) :=
  match cache.find? (fun p => p.1 == blobHash) with
  | some p => (some p.2, cache)
  | none =>
      match s.getBlob blobHash with
      | none => (none, cache)
      | some compressed =>
          let content := decompress compressed
          let cache :=
            if content.length < 100 * 1024 then cache ++ [(blobHash, content)]
            else cache
          (some content, cache)

/-- One iteration of the extractor's `for (const file of files)` loop:
resolve the target path, fetch the content (skipping the file with a
warning when the blob is missing), write it, accumulate `totalSize`, and
`chmod` when `file.mode` is nonzero. -/
def extractStep (decompress : Bytes → Bytes) (s : Store) (outputPath : String)
    (acc : List WriteOp × Nat × List (String × Bytes)) (file : JoinedFileRow) :
    List WriteOp × Nat × List (String × Bytes) :=
  let (writes, totalSize, cache) := acc
  let fullPath := outputPath ++ "/" ++ file.packagePath ++ "/" ++ file.relativePath
  match getContent decompress s cache file.blobHash with
  | (none, cache) => (writes, totalSize, cache)
  | (some content, cache) =>
      (writes ++
          [⟨fullPath, content,
            if file.mode ≠ 0 then some (Nat.land file.mode 511) else none⟩],
        totalSize + content.length, cache)

/-- Models `extractFiles`: load every joined file row, extract each in order with
a fresh blob cache, and return `{totalFiles, totalSize}` together with the
writes performed. -/
def extractFiles (decompress : Bytes → Bytes) (s : Store)
    (outputPath : String) : ExtractResult :=
  let files := s.getAllFiles
  let (writes, totalSize, _) :=
    files.foldl (extractStep decompress s outputPath) ([], 0, [])
  ⟨files.length, totalSize, writes⟩

/-! ### Status (`src/commands/status.ts`) -/

/-- Models `StatusResult` of `src/types.ts`. -/
structure StatusResult where
  onlyInDb : List String
  onlyInFs : List String
  modified : List String
  unchanged : Nat
deriving Repr, DecidableEq

/-- The filesystem as status sees it: `existsSync` and `readFile`, where
`read = none` models a thrown read error. -/
structure StatusFs where
  pathExists : String → Bool
  read : String → Option Bytes

/-- One iteration of status's `for (const [index, file] of files.entries())`
loop: missing path goes to `onlyInDb`; otherwise read and hash, a hash
mismatch or a read exception goes to `modified`, a match bumps
`unchanged`. -/
def statusStep (hashB : Bytes → String) (fs : StatusFs) (root : String)
    (res : StatusResult) (file : JoinedFileRow) : StatusResult :=
  let relativePath := file.packagePath ++ "/" ++ file.relativePath
  let fullPath := root ++ "/" ++ relativePath
  if ¬ fs.pathExists fullPath then
    { res with onlyInDb := res.onlyInDb ++ [relativePath] }
  else
    match fs.read fullPath with
    | none => { res with modified := res.modified ++ [relativePath] }
    | some content =>
        if hashB content ≠ file.blobHash then
          { res with modified := res.modified ++ [relativePath] }
        else { res with unchanged := res.unchanged + 1 }

/-- The `status` command.  `dbExists` / `treeExists` are `existsSync` on
the resolved database and tree paths; a missing database throws, a missing
tree returns the empty result after a warning, otherwise every joined file
row is classified. -/
def statusRun (hashB : Bytes → String) (dbExists treeExists : Bool)
    (fs : StatusFs) (root : String) (s : Store) :
    Except String StatusResult :=
  if ¬ dbExists then .error "Database not found"
  else if ¬ treeExists then .ok ⟨[], [], [], 0⟩
  else .ok ((s.getAllFiles).foldl (statusStep hashB fs root) ⟨[], [], [], 0⟩)

/-! ### Derived shapes used by the specification theorems -/

/-- The blob row `packFiles` stores for a file with bytes `c`. -/
def mkBlobRow (hashB : Bytes → String) (compress : Bytes → Bytes)
    (c : Bytes) : BlobRow :=
  ⟨hashB c, compress c, c.length, (compress c).length⟩

/-- Every file of a tree tagged with its package's relative path, in pack
processing order. -/
def taggedFiles (pkgs : List PackageWithFiles) : List (String × FileEntry) :=
  pkgs.flatMap (fun p => p.files.map (fun f => (p.path, f)))

/-- The byte contents of every file of a tree, in pack processing order. -/
def treeContents (pkgs : List PackageWithFiles) : List Bytes :=
  (taggedFiles pkgs).map (fun pf => pf.2.content)

/-- Models `packagePath ++ "/" ++ relativePath` for a tagged tree file. -/
def taggedJoined (pf : String × FileEntry) : String :=
  pf.1 ++ "/" ++ pf.2.relativePath

/-- The tree-relative path of every file of a tree. -/
def joinedPaths (pkgs : List PackageWithFiles) : List String :=
  (taggedFiles pkgs).map taggedJoined

/-- The writes that restore a tree `pkgs` under `out` exactly: each file
at `out/<packagePath>/<relativePath>` with its original bytes, `chmod`ed
to the low 9 bits of its original mode. -/
def expectedWrites (out : String) (pkgs : List PackageWithFiles) :
    List WriteOp :=
  (taggedFiles pkgs).map (fun pf =>
    ⟨out ++ "/" ++ pf.1 ++ "/" ++ pf.2.relativePath, pf.2.content,
      some (Nat.land pf.2.mode 511)⟩)

/-- The cache-free content fetch of the extractor: `getBlob` then
`decompress`, with the write the extractor performs for a row (or `none`
when the blob is missing and the row is skipped). -/
def pureWrite (decompress : Bytes → Bytes) (s : Store) (outputPath : String)
    (file : JoinedFileRow) : Option WriteOp :=
  (s.getBlob file.blobHash).map (fun compressed =>
    ⟨outputPath ++ "/" ++ file.packagePath ++ "/" ++ file.relativePath,
      decompress compressed,
      if file.mode ≠ 0 then some (Nat.land file.mode 511) else none⟩)

/-- Soundness of the extractor's blob cache: every cached entry is the
decompression of the stored blob under its key. -/
def cacheOK (decompress : Bytes → Bytes) (s : Store)
    (cache : List (String × Bytes)) : Prop :=
  ∀ p ∈ cache, ∃ compressed,
    s.getBlob p.1 = some compressed ∧ decompress compressed = p.2

/-- Invariant of the pack transaction fold, over the byte contents
`conts` of the files processed so far and the running `dedup` counter.
Every field survives a file-row upsert, so no distinctness assumption on
the tree is needed. -/
structure PackWeak (hashB : Bytes → String) (compress : Bytes → Bytes)
    (conts : List Bytes) (dedup : Nat) (s : Store) : Prop where
  blobs_src : ∀ row ∈ s.blobs, ∃ c ∈ conts, row = mkBlobRow hashB compress c
  conts_has : ∀ c ∈ conts, s.hasBlob (hashB c) = true
  blobs_nodup : (s.blobs.map (fun r => r.hash)).Nodup
  files_src : ∀ fr ∈ s.files, ∃ c ∈ conts, fr.blobHash = hashB c
  count_le : ∀ c : Bytes, conts.count c ≤ dedup + 1

/-- Correspondence between a processed tree file (tagged with its package
path) and its stored `files` row, resolving the row's `packageId` through
the given packages table. -/
def fileRowMatches (hashB : Bytes → String) (pkgs : List PkgRow)
    (pf : String × FileEntry) (fr : FileRow) : Prop :=
  fr.relativePath = pf.2.relativePath ∧ fr.blobHash = hashB pf.2.content
    ∧ fr.mode = pf.2.mode ∧ fr.mtime = pf.2.mtime
    ∧ ∃ pr ∈ pkgs, pr.id = fr.packageId ∧ pr.path = pf.1

/-- Strong invariant of the pack transaction fold, tracking the processed
tree files `done` in order.  Its maintenance relies on the distinctness
of the tree's joined paths (no upsert ever fires). -/
structure PackStrong (hashB : Bytes → String) (compress : Bytes → Bytes)
    (done : List (String × FileEntry)) (s : Store) : Prop where
  ids_nodup : (s.packages.map (fun r => r.id)).Nodup
  ids_lt : ∀ r ∈ s.packages, r.id < s.nextId
  blobs_src : ∀ row ∈ s.blobs,
    ∃ pf ∈ done, row = mkBlobRow hashB compress pf.2.content
  conts_has : ∀ pf ∈ done, s.hasBlob (hashB pf.2.content) = true
  blobs_nodup : (s.blobs.map (fun r => r.hash)).Nodup
  files_rel : List.Forall₂ (fileRowMatches hashB s.packages) done s.files

/-- The correspondence `getAllFiles` establishes between a processed tree
file and its joined row. -/
def joinedRowMatches (hashB : Bytes → String)
    (pf : String × FileEntry) (jr : JoinedFileRow) : Prop :=
  jr.relativePath = pf.2.relativePath ∧ jr.blobHash = hashB pf.2.content
    ∧ jr.mode = pf.2.mode ∧ jr.mtime = pf.2.mtime ∧ jr.packagePath = pf.1

/-- The tree-relative path status reports for a joined file row. -/
def joinedPath (file : JoinedFileRow) : String :=
  file.packagePath ++ "/" ++ file.relativePath

/-- Status classification: the row's path is absent from the tree. -/
def statusOnlyInDb (fs : StatusFs) (root : String)
    (file : JoinedFileRow) : Bool :=
  !fs.pathExists (root ++ "/" ++ joinedPath file)

/-- Status classification: the path exists but reading throws or the
re-hash differs from the stored digest. -/
def statusModified (hashB : Bytes → String) (fs : StatusFs) (root : String)
    (file : JoinedFileRow) : Bool :=
  fs.pathExists (root ++ "/" ++ joinedPath file) &&
    (match fs.read (root ++ "/" ++ joinedPath file) with
      | none => true
      | some content => hashB content != file.blobHash)

/-- Status classification: the path exists, reads, and re-hashes to the
stored digest. -/
def statusUnchanged (hashB : Bytes → String) (fs : StatusFs) (root : String)
    (file : JoinedFileRow) : Bool :=
  fs.pathExists (root ++ "/" ++ joinedPath file) &&
    (match fs.read (root ++ "/" ++ joinedPath file) with
      | none => false
      | some content => hashB content == file.blobHash)

/-- Whether a filesystem node is a directory. -/
def FsNode.isDir : FsNode → Bool
  | FsNode.file _ _ _ => false
  | FsNode.dir _ => true

/-! ### Concrete instances for witnesses and counterexamples -/

/-- An injective stand-in digest for witness instances: the
comma-separated decimal rendering of the bytes. -/
def demoHash (c : Bytes) : String :=
  String.intercalate "," (c.map toString)

/-- A stand-in codec for witness instances: prepend a marker byte. -/
def demoCompress (b : Bytes) : Bytes := 7 :: b

/-- Inverse of `demoCompress`. -/
def demoDecompress (b : Bytes) : Bytes := b.tail

/-- A two-package demo tree with one duplicated content across packages. -/
def demoTree : List PackageWithFiles :=
  [⟨"a", "1.0.0", "a",
      [⟨"index.js", [104, 105], 420, 2, 5⟩, ⟨"dup.js", [1, 2], 420, 2, 5⟩]⟩,
    ⟨"b", "2.0.0", "b", [⟨"x.js", [1, 2], 493, 2, 6⟩]⟩]

/-- A demo parse function: every manifest read as `{}` (fields absent). -/
def demoParseEmpty : Bytes → Option PkgManifest := fun _ => some ⟨none, none⟩

/-- A demo parse function: every manifest fails to parse. -/
def demoParseFail : Bytes → Option PkgManifest := fun _ => none

/-- A demo package directory holding only a manifest. -/
def demoPkgDir : FsNode :=
  FsNode.dir [("package.json", FsNode.file 420 [1] 0)]

/-- A root whose `.pnpm` entry is a regular file, next to a plain package
directory. -/
def pnpmFileRoot : List (String × FsNode) :=
  [(".pnpm", FsNode.file 420 [] 0),
    ("lodash", FsNode.dir [("package.json", FsNode.file 420 [1] 0)])]

/-- A pnpm-layout demo root. -/
def pnpmDemoRoot : List (String × FsNode) :=
  [(".pnpm", FsNode.dir
      [("foo@1.0.0", FsNode.dir
          [("node_modules", FsNode.dir
              [("foo", FsNode.dir
                  [("package.json", FsNode.file 420 [2] 0),
                    ("index.js", FsNode.file 420 [3, 4] 1)])])])]),
    ("foo", FsNode.dir [("package.json", FsNode.file 420 [2] 0)])]

/-- A demo store with one package, one blob, one file row. -/
def demoStore : Store :=
  ⟨[⟨1, "a", "1.0.0", "a"⟩],
    [⟨"h1", [7, 104], 1, 2⟩],
    [⟨1, "index.js", "h1", 420, 5⟩],
    2⟩

/-- A demo status filesystem: every path exists and reads `[104, 105]`. -/
def demoStatusFs : StatusFs :=
  ⟨fun _ => true, fun _ => some [104, 105]⟩

/-! ## Theorems -/

/-- C4.  Idempotent blob insert: starting from a store with no row for
digest `d`, inserting under `d` twice (any payloads) leaves the store of
the first insert unchanged — the second call is a no-op — and the blobs
table then holds exactly the first call's row under `d`. -/
theorem c4_insertBlob_idempotent (s : Store) (d : String) (b₁ b₂ : Bytes)
    (o₁ c₁ o₂ c₂ : Nat) (h : s.hasBlob d = false) :
    (s.insertBlob ⟨d, b₁, o₁, c₁⟩).insertBlob ⟨d, b₂, o₂, c₂⟩ =
        s.insertBlob ⟨d, b₁, o₁, c₁⟩
      ∧ (s.insertBlob ⟨d, b₁, o₁, c₁⟩).blobs.filter (fun r => r.hash == d) =
        [⟨d, b₁, o₁, c₁⟩] := by
  have hany : (s.blobs.any (fun r => r.hash == d)) = false := h
  have hall : ∀ r ∈ s.blobs, ¬ (r.hash == d) = true := by
    simpa [List.any_eq_true] using hany
  constructor
  · simp [Store.insertBlob, hany, List.any_append]
  · simp only [Store.insertBlob, hany, Bool.false_eq_true, if_false]
    rw [List.filter_append, List.filter_eq_nil_iff.mpr hall]
    simp

/-- C5.  `insertPackage` upsert: when a row with the unique
`(name, version, path)` triple exists (the prepared `ON CONFLICT … DO
UPDATE SET name = name RETURNING id` statement finds it), the existing
row's id is returned and no row is created or changed; otherwise exactly
one fresh row is appended under the next `AUTOINCREMENT` id. -/
theorem c5_insertPackage_upsert (s : Store) (n v p : String) :
    (∀ r, s.packages.find?
          (fun q => q.name == n && q.version == v && q.path == p) = some r →
        s.insertPackage n v p = (r.id, s)
          ∧ r.name = n ∧ r.version = v ∧ r.path = p)
      ∧ (s.packages.find?
            (fun q => q.name == n && q.version == v && q.path == p) = none →
          s.insertPackage n v p =
            (s.nextId,
              { s with
                  packages := s.packages ++ [⟨s.nextId, n, v, p⟩]
                  nextId := s.nextId + 1 })) := by
  constructor
  · intro r hr
    have htriple := List.find?_some hr
    simp only [Bool.and_eq_true, beq_iff_eq] at htriple
    refine ⟨?_, htriple.1.1, htriple.1.2, htriple.2⟩
    simp [Store.insertPackage, hr]
  · intro h
    simp [Store.insertPackage, h]

/-- The blob cache is semantically transparent: under a sound cache,
`getContent` returns exactly `decompress <$> getBlob`, and the updated
cache is again sound. -/
theorem getContent_spec (decompress : Bytes → Bytes) (s : Store)
    (cache : List (String × Bytes)) (h : String)
    (hc : cacheOK decompress s cache) :
    (getContent decompress s cache h).1 = (s.getBlob h).map decompress
      ∧ cacheOK decompress s (getContent decompress s cache h).2 := by
  cases hfind : cache.find? (fun p => p.1 == h) with
  | some q =>
      have hmem := List.mem_of_find?_eq_some hfind
      have hkey : q.1 = h := by simpa using List.find?_some hfind
      obtain ⟨comp, hblob, hdec⟩ := hc q hmem
      subst hkey
      constructor
      · simp [getContent, hfind, hblob, hdec]
      · simpa [getContent, hfind] using hc
  | none =>
      cases hblob : s.getBlob h with
      | none =>
          constructor
          · simp [getContent, hfind, hblob]
          · simpa [getContent, hfind, hblob] using hc
      | some comp =>
          constructor
          · simp [getContent, hfind, hblob]
          · simp only [getContent, hfind, hblob]
            intro p hp
            by_cases hlen : (decompress comp).length < 100 * 1024
            · simp only [hlen, if_true, List.mem_append, List.mem_singleton] at hp
              rcases hp with hp | hp
              · exact hc p hp
              · exact ⟨comp, by simp [hp, hblob]⟩
            · simp only [hlen, if_false] at hp
              exact hc p hp

/-- The extractor loop from any sound cache: it appends exactly the
cache-free writes of the remaining rows and accumulates their lengths. -/
theorem extractLoop_spec (decompress : Bytes → Bytes) (s : Store)
    (out : String) (files : List JoinedFileRow) :
    ∀ (ws : List WriteOp) (sz : Nat) (cache : List (String × Bytes)),
      cacheOK decompress s cache →
      ∃ cache',
        files.foldl (extractStep decompress s out) (ws, sz, cache) =
          (ws ++ files.filterMap (pureWrite decompress s out),
            sz + ((files.filterMap (pureWrite decompress s out)).map
              (fun w => w.content.length)).sum,
            cache') := by
  induction files with
  | nil => intro ws sz cache hc; exact ⟨cache, by simp⟩
  | cons f rest ih =>
      intro ws sz cache hc
      obtain ⟨h1, h2⟩ := getContent_spec decompress s cache f.blobHash hc
      cases hgc : getContent decompress s cache f.blobHash with
      | mk o cache₂ =>
          rw [hgc] at h1 h2
          cases hblob : s.getBlob f.blobHash with
          | none =>
              have ho : o = none := by rw [hblob] at h1; simpa using h1
              subst ho
              obtain ⟨cache', hrest⟩ := ih ws sz cache₂ h2
              refine ⟨cache', ?_⟩
              simp only [List.foldl_cons, extractStep, hgc]
              rw [hrest]
              simp [pureWrite, hblob]
          | some comp =>
              have ho : o = some (decompress comp) := by
                rw [hblob] at h1; simpa using h1
              subst ho
              obtain ⟨cache', hrest⟩ :=
                ih (ws ++
                    [⟨out ++ "/" ++ f.packagePath ++ "/" ++ f.relativePath,
                      decompress comp,
                      if f.mode ≠ 0 then some (Nat.land f.mode 511)
                      else none⟩])
                  (sz + (decompress comp).length) cache₂ h2
              refine ⟨cache', ?_⟩
              simp only [List.foldl_cons, extractStep, hgc]
              rw [hrest]
              simp [pureWrite, hblob, List.append_assoc, Nat.add_assoc]

/-- Fact: `extractFiles` in closed form: `totalFiles` counts every joined row,
the writes are the cache-free writes of each row in order (rows with a
missing blob skipped), and `totalSize` sums the written lengths. -/
theorem extractFiles_spec (decompress : Bytes → Bytes) (s : Store)
    (out : String) :
    extractFiles decompress s out =
      ⟨(s.getAllFiles).length,
        (((s.getAllFiles).filterMap (pureWrite decompress s out)).map
          (fun w => w.content.length)).sum,
        (s.getAllFiles).filterMap (pureWrite decompress s out)⟩ := by
  obtain ⟨cache', heq⟩ :=
    extractLoop_spec decompress s out (s.getAllFiles) [] 0 []
      (by intro p hp; simp at hp)
  simp only [extractFiles, heq, List.nil_append, Nat.zero_add]

/-- C9.  `extractFiles` reports `totalFiles` as the full count of joined
file rows even when rows are skipped for a missing blob, while
`totalSize` sums the decompressed lengths of only the rows actually
written. -/
theorem c9_extract_totals (decompress : Bytes → Bytes) (s : Store)
    (out : String) :
    (extractFiles decompress s out).totalFiles = (s.getAllFiles).length
      ∧ (extractFiles decompress s out).writes =
        (s.getAllFiles).filterMap (pureWrite decompress s out)
      ∧ (extractFiles decompress s out).totalSize =
        ((extractFiles decompress s out).writes.map
          (fun w => w.content.length)).sum := by
  rw [extractFiles_spec]
  exact ⟨rfl, rfl, rfl⟩

/-- The status loop in closed form: each bucket collects exactly the rows
its classifier selects, appended to the incoming accumulator. -/
theorem statusLoop_spec (hashB : Bytes → String) (fs : StatusFs)
    (root : String) (files : List JoinedFileRow) :
    ∀ acc : StatusResult,
      files.foldl (statusStep hashB fs root) acc =
        ⟨acc.onlyInDb ++ (files.filter (statusOnlyInDb fs root)).map joinedPath,
          acc.onlyInFs,
          acc.modified ++
            (files.filter (statusModified hashB fs root)).map joinedPath,
          acc.unchanged +
            (files.filter (statusUnchanged hashB fs root)).length⟩ := by
  induction files with
  | nil => intro acc; simp
  | cons f rest ih =>
      intro acc
      rw [List.foldl_cons, ih]
      cases hex : fs.pathExists (root ++ "/" ++ (f.packagePath ++ "/" ++ f.relativePath)) with
      | false =>
          simp [statusStep, statusOnlyInDb, statusModified, statusUnchanged,
            joinedPath, hex, List.filter_cons]
      | true =>
          cases hread : fs.read (root ++ "/" ++ (f.packagePath ++ "/" ++ f.relativePath)) with
          | none =>
              simp [statusStep, statusOnlyInDb, statusModified,
                statusUnchanged, joinedPath, hex, hread, List.filter_cons]
          | some c =>
              by_cases hh : hashB c = f.blobHash
              · simp [statusStep, statusOnlyInDb, statusModified,
                  statusUnchanged, joinedPath, hex, hread, hh,
                  List.filter_cons]
                omega
              · simp [statusStep, statusOnlyInDb, statusModified,
                  statusUnchanged, joinedPath, hex, hread, hh,
                  List.filter_cons]

/-- Fact: `statusRun` with both the database and the tree present, in closed
form. -/
theorem statusRun_spec (hashB : Bytes → String) (fs : StatusFs)
    (root : String) (s : Store) :
    statusRun hashB true true fs root s =
      .ok ⟨((s.getAllFiles).filter (statusOnlyInDb fs root)).map joinedPath,
        [],
        ((s.getAllFiles).filter (statusModified hashB fs root)).map
          joinedPath,
        ((s.getAllFiles).filter (statusUnchanged hashB fs root)).length⟩ := by
  simp only [statusRun, Bool.not_true, Bool.false_eq_true, if_false]
  rw [statusLoop_spec]
  simp

/-- C6.  Status classification: with the database and tree present, each
joined file row's path lands in `onlyInDb` exactly when it is absent from
the tree; otherwise it lands in `modified` exactly when the read throws
or the re-hash differs from the stored `blobHash`, and bumps `unchanged`
exactly when the re-hash matches. -/
theorem c6_status_classification (hashB : Bytes → String) (fs : StatusFs)
    (root : String) (s : Store) :
    statusRun hashB true true fs root s =
      .ok ⟨((s.getAllFiles).filter (statusOnlyInDb fs root)).map joinedPath,
        [],
        ((s.getAllFiles).filter (statusModified hashB fs root)).map
          joinedPath,
        ((s.getAllFiles).filter (statusUnchanged hashB fs root)).length⟩ :=
  statusRun_spec hashB fs root s

/-- Each joined row satisfies exactly one of the three status
classifiers. -/
theorem status_trichotomy (hashB : Bytes → String) (fs : StatusFs)
    (root : String) (f : JoinedFileRow) :
    (statusOnlyInDb fs root f = true ∧ statusModified hashB fs root f = false
        ∧ statusUnchanged hashB fs root f = false)
      ∨ (statusOnlyInDb fs root f = false
          ∧ statusModified hashB fs root f = true
          ∧ statusUnchanged hashB fs root f = false)
      ∨ (statusOnlyInDb fs root f = false
          ∧ statusModified hashB fs root f = false
          ∧ statusUnchanged hashB fs root f = true) := by
  cases hex : fs.pathExists (root ++ "/" ++ (f.packagePath ++ "/" ++ f.relativePath)) with
  | false =>
      exact Or.inl (by
        simp [statusOnlyInDb, statusModified, statusUnchanged, joinedPath, hex])
  | true =>
      cases hread : fs.read (root ++ "/" ++ (f.packagePath ++ "/" ++ f.relativePath)) with
      | none =>
          exact Or.inr (Or.inl (by
            simp [statusOnlyInDb, statusModified, statusUnchanged, joinedPath,
              hex, hread]))
      | some c =>
          by_cases hh : hashB c = f.blobHash
          · exact Or.inr (Or.inr (by
              simp [statusOnlyInDb, statusModified, statusUnchanged,
                joinedPath, hex, hread, hh]))
          · exact Or.inr (Or.inl (by
              simp [statusOnlyInDb, statusModified, statusUnchanged,
                joinedPath, hex, hread, hh]))

/-- The three status buckets partition the rows by count. -/
theorem status_counts (hashB : Bytes → String) (fs : StatusFs)
    (root : String) : ∀ files : List JoinedFileRow,
    (files.filter (statusOnlyInDb fs root)).length
        + (files.filter (statusModified hashB fs root)).length
        + (files.filter (statusUnchanged hashB fs root)).length
      = files.length := by
  intro files
  induction files with
  | nil => simp
  | cons f rest ih =>
      rcases status_trichotomy hashB fs root f with ⟨h1, h2, h3⟩ | ⟨h1, h2, h3⟩ | ⟨h1, h2, h3⟩ <;>
        simp [List.filter_cons, h1, h2, h3] <;> omega

/-- C10.  With database and tree both present, status assigns every row
returned by `getAllFiles` to exactly one bucket: the bucket sizes sum to
the row count and `onlyInFs` is returned empty. -/
theorem c10_status_partition (hashB : Bytes → String) (fs : StatusFs)
    (root : String) (s : Store) (r : StatusResult)
    (h : statusRun hashB true true fs root s = .ok r) :
    r.onlyInDb.length + r.modified.length + r.unchanged
        = (s.getAllFiles).length
      ∧ r.onlyInFs = [] := by
  rw [statusRun_spec] at h
  cases h
  constructor
  · simp only [List.length_map]
    exact status_counts hashB fs root (s.getAllFiles)
  · rfl

/-- C7.  Scanner manifest tolerance: a package directory whose
`package.json` cannot be read or parsed is skipped silently — no package
is emitted and scanning still succeeds (success is independent of the
parse function) — while a manifest that parses without `name` and
`version` yields a package named `"unknown"` at version `"0.0.0"`. -/
theorem c7_manifest_tolerance (pj : Bytes → Option PkgManifest)
    (node : FsNode) (rel : String) (ch : List (String × FsNode))
    (mode mtime : Nat) (c : Bytes) (root : List (String × FsNode)) :
    (parsePackageJson pj node = none → scanPackage pj (node, rel) = none)
      ∧ (∀ pj', (scanNodeModules pj root).isSome
          = (scanNodeModules pj' root).isSome)
      ∧ (lookupChild ch "package.json" = some (FsNode.file mode c mtime) →
          pj c = some ⟨none, none⟩ →
          scanPackage pj (FsNode.dir ch, rel) =
            some ⟨"unknown", "0.0.0", rel, walkNode (FsNode.dir ch)⟩) := by
  refine ⟨?_, ?_, ?_⟩
  · intro h; simp [scanPackage, h]
  · intro pj'
    cases h : scanPackageDirs root <;> simp [scanNodeModules, h]
  · intro hlook hpj
    simp [scanPackage, parsePackageJson, hlook, hpj, jsOrString]

/-- Every package emitted by the inner scan of one `.pnpm` entry carries
the full-chain relative path. -/
theorem pnpmInnerEntries_shape (e : String) :
    ∀ (l : List (String × FsNode)) (d : FsNode × String),
      d ∈ pnpmInnerEntries e l →
      ∃ p, d.2 = ".pnpm/" ++ e ++ "/node_modules/" ++ p
        ∨ ∃ sc, d.2 = ".pnpm/" ++ e ++ "/node_modules/" ++ p ++ "/" ++ sc := by
  intro l
  induction l with
  | nil => intro d hd; simp [pnpmInnerEntries] at hd
  | cons entry rest ih =>
      intro d hd
      obtain ⟨name, node⟩ := entry
      cases node with
      | file m c t => exact ih d hd
      | dir ch =>
          by_cases hbin : name == ".bin"
          · exact ih d (by simpa [pnpmInnerEntries, hbin] using hd)
          · by_cases hsc : strStartsWith name "@"
            · simp only [pnpmInnerEntries, hbin, hsc, if_false, if_true,
                Bool.false_eq_true, List.mem_append] at hd
              rcases hd with hd | hd
              · obtain ⟨q, _, hq⟩ := List.mem_filterMap.mp hd
                obtain ⟨qn, qnode⟩ := q
                cases qnode with
                | file _ _ _ => simp at hq
                | dir cch =>
                    refine ⟨name, Or.inr ⟨qn, ?_⟩⟩
                    simp only [Option.some_inj] at hq
                    rw [← hq]
              · exact ih d hd
            · simp only [pnpmInnerEntries, hbin, hsc, if_false,
                Bool.false_eq_true, List.mem_cons] at hd
              rcases hd with hd | hd
              · exact ⟨name, Or.inl (by rw [hd])⟩
              · exact ih d hd

/-- Every package directory one `.pnpm` entry contributes carries the
full-chain relative path named after that entry. -/
theorem findPnpmEntry_shape (name : String) (node : FsNode)
    (xs : List (FsNode × String)) (h : findPnpmEntry name node = some xs) :
    ∀ d ∈ xs, ∃ p, d.2 = ".pnpm/" ++ name ++ "/node_modules/" ++ p
      ∨ ∃ sc, d.2 = ".pnpm/" ++ name ++ "/node_modules/" ++ p ++ "/" ++ sc := by
  cases node with
  | file m c t =>
      simp only [findPnpmEntry, Option.some_inj] at h
      intro d hd; rw [← h] at hd; simp at hd
  | dir ch =>
      by_cases hskip : (name == "node_modules" || strStartsWith name ".") = true
      · simp only [findPnpmEntry, hskip, if_true, Option.some_inj] at h
        intro d hd; rw [← h] at hd; simp at hd
      · cases hlook : lookupChild ch "node_modules" with
        | none =>
            simp only [findPnpmEntry, hskip, Bool.false_eq_true, if_false,
              hlook, Option.some_inj] at h
            intro d hd; rw [← h] at hd; simp at hd
        | some inner =>
            cases hrd : readdirD inner with
            | none =>
                simp [findPnpmEntry, hskip, hlook, hrd] at h
            | some innerCh =>
                simp only [findPnpmEntry, hskip, Bool.false_eq_true, if_false,
                  hlook, hrd, Option.some_inj] at h
                intro d hd; rw [← h] at hd
                exact pnpmInnerEntries_shape name innerCh d hd

/-- Every package directory found by the `.pnpm` enumeration carries a
relative path of the form `".pnpm/<entry>/node_modules/<pkg>"`, with
`"/<scope-child>"` appended for scoped packages. -/
theorem findPnpmEntries_shape :
    ∀ (l : List (String × FsNode)) (dirs : List (FsNode × String)),
      findPnpmEntries l = some dirs →
      ∀ d ∈ dirs, ∃ e p, d.2 = ".pnpm/" ++ e ++ "/node_modules/" ++ p
        ∨ ∃ sc, d.2 = ".pnpm/" ++ e ++ "/node_modules/" ++ p ++ "/" ++ sc := by
  intro l
  induction l with
  | nil =>
      intro dirs h d hd
      simp only [findPnpmEntries, Option.some_inj] at h
      rw [← h] at hd
      simp at hd
  | cons entry rest ih =>
      intro dirs h d hd
      obtain ⟨name, node⟩ := entry
      simp only [findPnpmEntries, Option.bind_eq_bind, Option.bind_eq_some] at h
      obtain ⟨xs, hxs, ys, hys, hdirs⟩ := by simpa using h
      rw [← hdirs] at hd
      rcases List.mem_append.mp hd with hd | hd
      · obtain ⟨p, hp⟩ := findPnpmEntry_shape name node xs hxs d hd
        exact ⟨name, p, hp⟩
      · exact ih ys hys d hd

/-- C8 (amended).  Layout routing keys on the existence of any root entry
named `.pnpm`: when one exists — directory or not — packages are
enumerated via the symlink-farm path, which consults only the `.pnpm`
entry (plain-layout siblings are ignored) and emits full-chain
`".pnpm/<entry>/node_modules/<pkg>"` relative paths (scoped:
`"/<scope-child>"` appended); only a root with no `.pnpm` entry at all is
enumerated via the flat layout. -/
theorem c8_layout_detection (root : List (String × FsNode)) :
    (∀ n, lookupChild root ".pnpm" = some n →
        scanPackageDirs root = findPnpmPackageDirs root)
      ∧ (lookupChild root ".pnpm" = none →
          scanPackageDirs root = some (findPackageDirs root))
      ∧ (∀ root', lookupChild root' ".pnpm" = lookupChild root ".pnpm" →
          findPnpmPackageDirs root' = findPnpmPackageDirs root)
      ∧ (∀ dirs, findPnpmPackageDirs root = some dirs →
          ∀ d ∈ dirs, ∃ e p, d.2 = ".pnpm/" ++ e ++ "/node_modules/" ++ p
            ∨ ∃ sc,
                d.2 = ".pnpm/" ++ e ++ "/node_modules/" ++ p ++ "/" ++ sc) := by
  refine ⟨?_, ?_, ?_, ?_⟩
  · intro n h
    simp [scanPackageDirs, isPnpmStructure, h]
  · intro h
    simp [scanPackageDirs, isPnpmStructure, h]
  · intro root' h
    simp only [findPnpmPackageDirs, h]
  · intro dirs h d hd
    cases hlook : lookupChild root ".pnpm" with
    | none => simp [findPnpmPackageDirs, hlook] at h
    | some pnpmNode =>
        cases hrd : readdirD pnpmNode with
        | none => simp [findPnpmPackageDirs, hlook, hrd] at h
        | some entries =>
            simp only [findPnpmPackageDirs, hlook, hrd] at h
            exact findPnpmEntries_shape entries dirs h d hd

/-- C8, counterexample to the claim as stated: a root whose `.pnpm` entry
is a regular file has no child *directory* named `.pnpm`, yet the scan
takes the symlink-farm path and fails (`readdir` on a file), instead of
the flat enumeration — which would have found the sibling package. -/
theorem c8_counterexample :
    scanNodeModules demoParseEmpty pnpmFileRoot = none
      ∧ (lookupChild pnpmFileRoot ".pnpm").map FsNode.isDir = some false
      ∧ (findPackageDirs pnpmFileRoot).map (fun d => d.2) = ["lodash"] := by
  refine ⟨by decide, by decide, by decide⟩

/-- Fact: `insertFile` leaves the blobs table untouched. -/
theorem insertFile_blobs (s : Store) (fr : FileRow) :
    (s.insertFile fr).blobs = s.blobs := by
  unfold Store.insertFile; split <;> rfl

/-- Fact: `insertFile` leaves the packages table untouched. -/
theorem insertFile_packages (s : Store) (fr : FileRow) :
    (s.insertFile fr).packages = s.packages := by
  unfold Store.insertFile; split <;> rfl

/-- Fact: `insertFile` leaves the id counter untouched. -/
theorem insertFile_nextId (s : Store) (fr : FileRow) :
    (s.insertFile fr).nextId = s.nextId := by
  unfold Store.insertFile; split <;> rfl

/-- Fact: `insertFile` does not change blob lookups. -/
theorem insertFile_hasBlob (s : Store) (fr : FileRow) (k : String) :
    (s.insertFile fr).hasBlob k = s.hasBlob k := by
  unfold Store.hasBlob; rw [insertFile_blobs]

/-- Fact: `insertBlob` leaves the packages table untouched. -/
theorem insertBlob_packages (s : Store) (b : BlobRow) :
    (s.insertBlob b).packages = s.packages := by
  unfold Store.insertBlob; split <;> rfl

/-- Fact: `insertBlob` leaves the files table untouched. -/
theorem insertBlob_files (s : Store) (b : BlobRow) :
    (s.insertBlob b).files = s.files := by
  unfold Store.insertBlob; split <;> rfl

/-- Fact: `insertBlob` leaves the id counter untouched. -/
theorem insertBlob_nextId (s : Store) (b : BlobRow) :
    (s.insertBlob b).nextId = s.nextId := by
  unfold Store.insertBlob; split <;> rfl

/-- Fact: `insertBlob` never removes a blob. -/
theorem insertBlob_hasBlob_mono (s : Store) (b : BlobRow) (k : String)
    (h : s.hasBlob k = true) : (s.insertBlob b).hasBlob k = true := by
  unfold Store.insertBlob
  split
  · exact h
  · unfold Store.hasBlob at h ⊢
    simp only [List.any_append, h, Bool.true_or]

/-- An unseen digest's blob insert appends the row. -/
theorem insertBlob_blobs_of_fresh (s : Store) (b : BlobRow)
    (h : s.hasBlob b.hash = false) :
    (s.insertBlob b).blobs = s.blobs ++ [b] := by
  unfold Store.hasBlob at h
  unfold Store.insertBlob
  simp [h]

/-- Every row of the files table after `insertFile` is an old row, an old
row with the inserted blob reference / mode / mtime, or the inserted
row. -/
theorem insertFile_files_cases (s : Store) (fr : FileRow) :
    ∀ x ∈ (s.insertFile fr).files,
      (∃ y ∈ s.files,
          x = ⟨y.packageId, y.relativePath, fr.blobHash, fr.mode, fr.mtime⟩)
        ∨ x ∈ s.files ∨ x = fr := by
  intro x hx
  unfold Store.insertFile at hx
  by_cases hc : (s.files.any (fun r =>
      r.packageId == fr.packageId && r.relativePath == fr.relativePath)) = true
  · simp only [hc, if_true] at hx
    obtain ⟨y, hy, hxy⟩ := List.mem_map.mp hx
    by_cases hyc : (y.packageId == fr.packageId
        && y.relativePath == fr.relativePath) = true
    · simp only [hyc, if_true] at hxy
      exact Or.inl ⟨y, hy, hxy.symm⟩
    · simp only [hyc, Bool.false_eq_true, if_false] at hxy
      exact Or.inr (Or.inl (hxy ▸ hy))
  · simp only [hc, Bool.false_eq_true, if_false] at hx
    rcases List.mem_append.mp hx with hx | hx
    · exact Or.inr (Or.inl hx)
    · exact Or.inr (Or.inr (List.mem_singleton.mp hx))

/-- One packed file preserves the weak pack invariant, extending the
processed contents by the file's bytes. -/
theorem packOneFile_weak (hashB : Bytes → String) (compress : Bytes → Bytes)
    (conts : List Bytes) (dedup : Nat) (s : Store) (pid : Nat) (f : FileEntry)
    (h : PackWeak hashB compress conts dedup s) :
    PackWeak hashB compress (conts ++ [f.content])
      (packOneFile hashB compress pid (s, dedup) f).2
      (packOneFile hashB compress pid (s, dedup) f).1 := by
  by_cases hb : s.hasBlob (hashB f.content) = true
  · have h1 : (packOneFile hashB compress pid (s, dedup) f).1 =
        s.insertFile ⟨pid, f.relativePath, hashB f.content, f.mode, f.mtime⟩ := by
      simp [packOneFile, hb]
    have h2 : (packOneFile hashB compress pid (s, dedup) f).2 = dedup + 1 := by
      simp [packOneFile, hb]
    rw [h1, h2]
    refine ⟨?_, ?_, ?_, ?_, ?_⟩
    · intro row hrow
      rw [insertFile_blobs] at hrow
      obtain ⟨c, hc, hrc⟩ := h.blobs_src row hrow
      exact ⟨c, List.mem_append_left _ hc, hrc⟩
    · intro c hc
      rw [insertFile_hasBlob]
      rcases List.mem_append.mp hc with hc | hc
      · exact h.conts_has c hc
      · rw [List.mem_singleton.mp hc]; exact hb
    · rw [insertFile_blobs]; exact h.blobs_nodup
    · intro fr hfr
      rcases insertFile_files_cases s _ fr hfr with ⟨y, _, hxy⟩ | hfr | hfr
      · exact ⟨f.content, List.mem_append_right _ (List.mem_singleton_self _),
          by rw [hxy]⟩
      · obtain ⟨c, hc, hrc⟩ := h.files_src fr hfr
        exact ⟨c, List.mem_append_left _ hc, hrc⟩
      · exact ⟨f.content, List.mem_append_right _ (List.mem_singleton_self _),
          by rw [hfr]⟩
    · intro c
      have hcle := h.count_le c
      have hone : ([f.content]).count c ≤ 1 := by
        calc ([f.content]).count c ≤ ([f.content]).length := List.count_le_length c _
        _ = 1 := rfl
      rw [List.count_append]
      omega
  · rw [Bool.not_eq_true] at hb
    have h1 : (packOneFile hashB compress pid (s, dedup) f).1 =
        (s.insertBlob (mkBlobRow hashB compress f.content)).insertFile
          ⟨pid, f.relativePath, hashB f.content, f.mode, f.mtime⟩ := by
      simp [packOneFile, hb, mkBlobRow]
    have h2 : (packOneFile hashB compress pid (s, dedup) f).2 = dedup := by
      simp [packOneFile, hb]
    have hfreshblobs :
        (s.insertBlob (mkBlobRow hashB compress f.content)).blobs =
          s.blobs ++ [mkBlobRow hashB compress f.content] :=
      insertBlob_blobs_of_fresh s _ hb
    have hnotinconts : f.content ∉ conts := by
      intro hmem
      have := h.conts_has f.content hmem
      rw [hb] at this
      exact Bool.noConfusion this
    have hhashfresh : ∀ r ∈ s.blobs, r.hash ≠ hashB f.content := by
      intro r hr heq
      have hhas : s.hasBlob (hashB f.content) = true := by
        unfold Store.hasBlob
        rw [List.any_eq_true]
        exact ⟨r, hr, by simp [heq]⟩
      rw [hb] at hhas
      exact Bool.noConfusion hhas
    rw [h1, h2]
    refine ⟨?_, ?_, ?_, ?_, ?_⟩
    · intro row hrow
      rw [insertFile_blobs, hfreshblobs] at hrow
      rcases List.mem_append.mp hrow with hrow | hrow
      · obtain ⟨c, hc, hrc⟩ := h.blobs_src row hrow
        exact ⟨c, List.mem_append_left _ hc, hrc⟩
      · exact ⟨f.content, List.mem_append_right _ (List.mem_singleton_self _),
          List.mem_singleton.mp hrow⟩
    · intro c hc
      rw [insertFile_hasBlob]
      rcases List.mem_append.mp hc with hc | hc
      · exact insertBlob_hasBlob_mono s _ _ (h.conts_has c hc)
      · rw [List.mem_singleton.mp hc]
        unfold Store.hasBlob
        rw [hfreshblobs, List.any_eq_true]
        exact ⟨mkBlobRow hashB compress f.content,
          List.mem_append_right _ (List.mem_singleton_self _),
          by simp [mkBlobRow]⟩
    · rw [insertFile_blobs, hfreshblobs, List.map_append]
      rw [List.nodup_append]
      refine ⟨h.blobs_nodup, List.nodup_singleton _, ?_⟩
      intro a ha hb'
      simp only [List.map_cons, List.map_nil, List.mem_singleton] at hb'
      obtain ⟨r, hr, hra⟩ := List.mem_map.mp ha
      refine hhashfresh r hr ?_
      rw [hra, hb']
      rfl
    · intro fr hfr
      rcases insertFile_files_cases _ _ fr hfr with ⟨y, _, hxy⟩ | hfr' | hfr'
      · exact ⟨f.content, List.mem_append_right _ (List.mem_singleton_self _),
          by rw [hxy]⟩
      · rw [insertBlob_files] at hfr'
        obtain ⟨c, hc, hrc⟩ := h.files_src fr hfr'
        exact ⟨c, List.mem_append_left _ hc, hrc⟩
      · exact ⟨f.content, List.mem_append_right _ (List.mem_singleton_self _),
          by rw [hfr']⟩
    · intro c
      have hcle := h.count_le c
      rw [List.count_append]
      by_cases hfc : c = f.content
      · have h0 : conts.count c = 0 := by
          rw [List.count_eq_zero, hfc]
          exact hnotinconts
        have h1' : ([f.content]).count c ≤ 1 := by
          calc ([f.content]).count c ≤ ([f.content]).length :=
              List.count_le_length c _
          _ = 1 := rfl
        omega
      · have h0 : ([f.content]).count c = 0 := by
          rw [List.count_eq_zero]
          simp [hfc]
        omega

/-- The inner pack loop over one package's files preserves the weak
invariant, extending the processed contents by those files' bytes. -/
theorem packFilesLoop_weak (hashB : Bytes → String) (compress : Bytes → Bytes)
    (pid : Nat) (fs : List FileEntry) :
    ∀ (conts : List Bytes) (dedup : Nat) (s : Store),
      PackWeak hashB compress conts dedup s →
      PackWeak hashB compress (conts ++ fs.map (fun f => f.content))
        (fs.foldl (packOneFile hashB compress pid) (s, dedup)).2
        (fs.foldl (packOneFile hashB compress pid) (s, dedup)).1 := by
  induction fs with
  | nil => intro conts dedup s h; simpa using h
  | cons f rest ih =>
      intro conts dedup s h
      have h1 := packOneFile_weak hashB compress conts dedup s pid f h
      have h2 := ih (conts ++ [f.content])
        (packOneFile hashB compress pid (s, dedup) f).2
        (packOneFile hashB compress pid (s, dedup) f).1 h1
      simpa [List.append_assoc] using h2

/-- Fact: `insertPackage` touches neither blobs nor files. -/
theorem insertPackage_blobs (s : Store) (n v p : String) :
    (s.insertPackage n v p).2.blobs = s.blobs := by
  unfold Store.insertPackage
  cases s.packages.find? (fun r => r.name == n && r.version == v && r.path == p) <;> rfl

/-- Fact: `insertPackage` touches neither blobs nor files. -/
theorem insertPackage_files (s : Store) (n v p : String) :
    (s.insertPackage n v p).2.files = s.files := by
  unfold Store.insertPackage
  cases s.packages.find? (fun r => r.name == n && r.version == v && r.path == p) <;> rfl

/-- Fact: `insertPackage` does not change blob lookups. -/
theorem insertPackage_hasBlob (s : Store) (n v p : String) (k : String) :
    (s.insertPackage n v p).2.hasBlob k = s.hasBlob k := by
  unfold Store.hasBlob; rw [insertPackage_blobs]

/-- Fact: `insertPackage` preserves the weak pack invariant. -/
theorem packWeak_insertPackage (hashB : Bytes → String)
    (compress : Bytes → Bytes) (conts : List Bytes) (dedup : Nat) (s : Store)
    (n v p : String) (h : PackWeak hashB compress conts dedup s) :
    PackWeak hashB compress conts dedup (s.insertPackage n v p).2 := by
  refine ⟨?_, ?_, ?_, ?_, h.count_le⟩
  · intro row hrow
    rw [insertPackage_blobs] at hrow
    exact h.blobs_src row hrow
  · intro c hc
    rw [insertPackage_hasBlob]
    exact h.conts_has c hc
  · rw [insertPackage_blobs]; exact h.blobs_nodup
  · intro fr hfr
    rw [insertPackage_files] at hfr
    exact h.files_src fr hfr

/-- Fact: `treeContents` unfolds one package at a time. -/
theorem treeContents_cons (p : PackageWithFiles)
    (rest : List PackageWithFiles) :
    treeContents (p :: rest) =
      p.files.map (fun f => f.content) ++ treeContents rest := by
  simp [treeContents, taggedFiles, List.map_append]

/-- The outer pack loop preserves the weak invariant over all processed
packages. -/
theorem packFilesOuter_weak (hashB : Bytes → String)
    (compress : Bytes → Bytes) (pkgs : List PackageWithFiles) :
    ∀ (conts : List Bytes) (dedup : Nat) (s : Store),
      PackWeak hashB compress conts dedup s →
      PackWeak hashB compress (conts ++ treeContents pkgs)
        (pkgs.foldl (packOnePackage hashB compress) (s, dedup)).2
        (pkgs.foldl (packOnePackage hashB compress) (s, dedup)).1 := by
  induction pkgs with
  | nil => intro conts dedup s h; simpa [treeContents, taggedFiles] using h
  | cons p rest ih =>
      intro conts dedup s h
      have h1 := packWeak_insertPackage hashB compress conts dedup s
        p.name p.version p.path h
      have h2 := packFilesLoop_weak hashB compress
        (s.insertPackage p.name p.version p.path).1 p.files conts dedup
        (s.insertPackage p.name p.version p.path).2 h1
      have h3 := ih (conts ++ p.files.map (fun f => f.content))
        (p.files.foldl
          (packOneFile hashB compress (s.insertPackage p.name p.version p.path).1)
          ((s.insertPackage p.name p.version p.path).2, dedup)).2
        (p.files.foldl
          (packOneFile hashB compress (s.insertPackage p.name p.version p.path).1)
          ((s.insertPackage p.name p.version p.path).2, dedup)).1 h2
      rw [treeContents_cons]
      simpa [packOnePackage, List.append_assoc] using h3

/-- The pack transaction establishes the weak invariant over the whole
tree. -/
theorem packFiles_weak (hashB : Bytes → String) (compress : Bytes → Bytes)
    (pkgs : List PackageWithFiles) :
    PackWeak hashB compress (treeContents pkgs)
      (packFiles hashB compress pkgs).2
      (packFiles hashB compress pkgs).1 := by
  have hinit : PackWeak hashB compress [] 0 Store.empty := by
    refine ⟨?_, ?_, ?_, ?_, ?_⟩ <;> simp [Store.empty]
  have := packFilesOuter_weak hashB compress pkgs [] 0 Store.empty hinit
  simpa [packFiles] using this

/-- C2.  Digest correctness of a packed snapshot: for every file row, the
blobs table holds a row keyed by the file's `blob_hash` whose stored
content decompresses to bytes hashing back to that key, and no digest
appears twice. -/
theorem c2_digest_correctness (hashB : Bytes → String)
    (compress decompress : Bytes → Bytes) (pkgs : List PackageWithFiles)
    (hdec : ∀ b, decompress (compress b) = b) :
    (∀ fr ∈ (packFiles hashB compress pkgs).1.files,
        ∃ row ∈ (packFiles hashB compress pkgs).1.blobs,
          row.hash = fr.blobHash
            ∧ hashB (decompress row.content) = fr.blobHash)
      ∧ ((packFiles hashB compress pkgs).1.blobs.map
          (fun r => r.hash)).Nodup := by
  have W := packFiles_weak hashB compress pkgs
  refine ⟨?_, W.blobs_nodup⟩
  intro fr hfr
  obtain ⟨c, hc, hbh⟩ := W.files_src fr hfr
  have hhas := W.conts_has c hc
  unfold Store.hasBlob at hhas
  rw [List.any_eq_true] at hhas
  obtain ⟨row, hrow, hkey⟩ := hhas
  rw [beq_iff_eq] at hkey
  obtain ⟨c', _, hrc'⟩ := W.blobs_src row hrow
  refine ⟨row, hrow, by rw [hkey, hbh], ?_⟩
  rw [hrc']
  show hashB (decompress (compress c')) = fr.blobHash
  rw [hdec c']
  have : hashB c' = row.hash := by rw [hrc']; rfl
  rw [this, hkey, hbh]

/-- Among rows with pairwise-distinct hashes, filtering by one hash key
yields at most one row. -/
theorem blobs_filter_length_le (l : List BlobRow) (k : String)
    (hn : (l.map (fun r => r.hash)).Nodup) :
    (l.filter (fun r => r.hash == k)).length ≤ 1 := by
  induction l with
  | nil => simp
  | cons r rest ih =>
      rw [List.map_cons, List.nodup_cons] at hn
      rw [List.filter_cons]
      by_cases hr : (r.hash == k) = true
      · rw [if_pos hr]
        have hrest : rest.filter (fun q => q.hash == k) = [] := by
          rw [List.filter_eq_nil_iff]
          intro q hq hqk
          rw [beq_iff_eq] at hqk
          rw [beq_iff_eq] at hr
          exact hn.1 (List.mem_map.mpr ⟨q, hq, by rw [hqk, hr]⟩)
        rw [hrest]
        simp
      · rw [if_neg (by simpa using hr)]
        exact ih hn.2

/-- C3.  Deduplication: when a content `c` occurs at least once in the
tree, the packed blobs table carries exactly one row for it — keyed by
its digest, holding its compressed bytes — and the reported deduplication
count is at least its occurrence count minus one.  (`hinj` states that
the digest is collision-free on the tree's contents.) -/
theorem c3_deduplication (hashB : Bytes → String) (compress : Bytes → Bytes)
    (pkgs : List PackageWithFiles) (c : Bytes)
    (hinj : ∀ c₁ ∈ treeContents pkgs, ∀ c₂ ∈ treeContents pkgs,
      hashB c₁ = hashB c₂ → c₁ = c₂)
    (hN : 1 ≤ (treeContents pkgs).count c) :
    (packFiles hashB compress pkgs).1.blobs.filter
        (fun r => r.hash == hashB c) = [mkBlobRow hashB compress c]
      ∧ (treeContents pkgs).count c - 1 ≤ (packFiles hashB compress pkgs).2 := by
  have W := packFiles_weak hashB compress pkgs
  have hmem : c ∈ treeContents pkgs := by
    by_contra hcm
    rw [← List.count_eq_zero] at hcm
    omega
  constructor
  · have hhas := W.conts_has c hmem
    unfold Store.hasBlob at hhas
    rw [List.any_eq_true] at hhas
    obtain ⟨row, hrow, hkey⟩ := hhas
    have hall : ∀ x ∈ (packFiles hashB compress pkgs).1.blobs.filter
        (fun r => r.hash == hashB c), x = mkBlobRow hashB compress c := by
      intro x hx
      have hxmem := List.mem_of_mem_filter hx
      have hxkey : x.hash = hashB c := by
        simpa using List.of_mem_filter hx
      obtain ⟨c', hc', hxc'⟩ := W.blobs_src x hxmem
      have hcc : c' = c := by
        refine hinj c' hc' c hmem ?_
        have : hashB c' = x.hash := by rw [hxc']; rfl
        rw [this, hxkey]
      rw [hxc', hcc]
    have hne : (packFiles hashB compress pkgs).1.blobs.filter
        (fun r => r.hash == hashB c) ≠ [] := by
      intro hnil
      have : row ∈ (packFiles hashB compress pkgs).1.blobs.filter
          (fun r => r.hash == hashB c) := List.mem_filter.mpr ⟨hrow, hkey⟩
      rw [hnil] at this
      simp at this
    have hlen := blobs_filter_length_le
      ((packFiles hashB compress pkgs).1.blobs) (hashB c) W.blobs_nodup
    cases hfl : (packFiles hashB compress pkgs).1.blobs.filter
        (fun r => r.hash == hashB c) with
    | nil => exact absurd hfl hne
    | cons x xs =>
        have hx := hall x (by rw [hfl]; exact List.mem_cons_self x xs)
        have hxs : xs = [] := by
          rw [hfl] at hlen
          simp only [List.length_cons] at hlen
          have hzero : xs.length = 0 := by omega
          exact List.length_eq_zero.mp hzero
        rw [hx, hxs]
  · have := W.count_le c
    omega

/-- A member of the right list of a `Forall₂` has a related partner on
the left. -/
theorem forall₂_mem_right {α β : Type} {R : α → β → Prop} :
    ∀ {l₁ : List α} {l₂ : List β}, List.Forall₂ R l₁ l₂ →
      ∀ y ∈ l₂, ∃ x ∈ l₁, R x y := by
  intro l₁ l₂ h
  induction h with
  | nil => intro y hy; simp at hy
  | cons hab htail ih =>
      intro y hy
      rcases List.mem_cons.mp hy with hy | hy
      · exact ⟨_, List.mem_cons_self _ _, hy ▸ hab⟩
      · obtain ⟨x, hx, hxy⟩ := ih y hy
        exact ⟨x, List.mem_cons_of_mem _ hx, hxy⟩

/-- Fact: `fileRowMatches` is monotone in the packages table. -/
theorem fileRowMatches_mono (hashB : Bytes → String)
    {pkgs pkgs' : List PkgRow} (hsub : ∀ r ∈ pkgs, r ∈ pkgs')
    {pf : String × FileEntry} {fr : FileRow}
    (h : fileRowMatches hashB pkgs pf fr) :
    fileRowMatches hashB pkgs' pf fr := by
  obtain ⟨h1, h2, h3, h4, pr, hpr, h5, h6⟩ := h
  exact ⟨h1, h2, h3, h4, pr, hsub pr hpr, h5, h6⟩

/-- Fact: `insertPackage` preserves the strong pack invariant, keeps every old
package row, and points the returned id at a row carrying the inserted
path. -/
theorem packStrong_insertPackage (hashB : Bytes → String)
    (compress : Bytes → Bytes) (done : List (String × FileEntry)) (s : Store)
    (n v p : String) (hS : PackStrong hashB compress done s) :
    PackStrong hashB compress done (s.insertPackage n v p).2
      ∧ (∃ pr ∈ (s.insertPackage n v p).2.packages,
          pr.id = (s.insertPackage n v p).1 ∧ pr.path = p)
      ∧ (∀ r ∈ s.packages, r ∈ (s.insertPackage n v p).2.packages) := by
  cases hf : s.packages.find?
      (fun r => r.name == n && r.version == v && r.path == p) with
  | some r =>
      have hres : s.insertPackage n v p = (r.id, s) := by
        simp [Store.insertPackage, hf]
      rw [hres]
      have hrtriple := List.find?_some hf
      simp only [Bool.and_eq_true, beq_iff_eq] at hrtriple
      exact ⟨hS, ⟨r, List.mem_of_find?_eq_some hf, rfl, hrtriple.2⟩,
        fun q hq => hq⟩
  | none =>
      have hres : s.insertPackage n v p =
          (s.nextId,
            { s with packages := s.packages ++ [⟨s.nextId, n, v, p⟩]
                     nextId := s.nextId + 1 }) := by
        simp [Store.insertPackage, hf]
      rw [hres]
      refine ⟨⟨?_, ?_, hS.blobs_src, hS.conts_has, hS.blobs_nodup, ?_⟩,
        ⟨⟨s.nextId, n, v, p⟩,
          List.mem_append_right _ (List.mem_singleton_self _), rfl, rfl⟩,
        fun q hq => List.mem_append_left _ hq⟩
      · rw [List.map_append]
        rw [List.nodup_append]
        refine ⟨hS.ids_nodup, List.nodup_singleton _, ?_⟩
        intro a ha ha'
        simp only [List.map_cons, List.map_nil, List.mem_singleton] at ha'
        obtain ⟨q, hq, hqa⟩ := List.mem_map.mp ha
        have := hS.ids_lt q hq
        rw [hqa] at this
        rw [ha'] at this
        exact Nat.lt_irrefl _ this
      · intro q hq
        rcases List.mem_append.mp hq with hq | hq
        · exact Nat.lt_succ_of_lt (hS.ids_lt q hq)
        · rw [List.mem_singleton.mp hq]
          exact Nat.lt_succ_self _
      · exact hS.files_rel.imp (fun _ _ hm =>
          fileRowMatches_mono hashB (fun q hq => List.mem_append_left _ hq) hm)

/-- If no files-table row carries the inserted unique key, `insertFile`
appends. -/
theorem insertFile_files_of_fresh (s : Store) (fr : FileRow)
    (h : (s.files.any (fun r =>
      r.packageId == fr.packageId && r.relativePath == fr.relativePath)) = false) :
    (s.insertFile fr).files = s.files ++ [fr] := by
  unfold Store.insertFile
  simp [h]

/-- One packed file preserves the strong pack invariant when its joined
path is new, leaving the packages table and id counter untouched. -/
theorem packOneFile_strong (hashB : Bytes → String) (compress : Bytes → Bytes)
    (done : List (String × FileEntry)) (s : Store) (pid : Nat) (pp : String)
    (dedup : Nat) (f : FileEntry)
    (hS : PackStrong hashB compress done s)
    (hpr : ∃ pr ∈ s.packages, pr.id = pid ∧ pr.path = pp)
    (hfresh : taggedJoined (pp, f) ∉ done.map taggedJoined) :
    PackStrong hashB compress (done ++ [(pp, f)])
      (packOneFile hashB compress pid (s, dedup) f).1
      ∧ (packOneFile hashB compress pid (s, dedup) f).1.packages = s.packages
      ∧ (packOneFile hashB compress pid (s, dedup) f).1.nextId = s.nextId := by
  obtain ⟨pr, hprmem, hprid, hprpath⟩ := hpr
  -- the file-row insert never conflicts
  have hnoconf : ∀ (s₁ : Store), s₁.files = s.files →
      (s₁.files.any (fun r =>
        r.packageId == pid && r.relativePath == f.relativePath)) = false := by
    intro s₁ hfiles
    rw [hfiles]
    rw [← Bool.not_eq_true, List.any_eq_true]
    rintro ⟨r, hr, hcond⟩
    simp only [Bool.and_eq_true, beq_iff_eq] at hcond
    obtain ⟨pf, hpf, hmatch⟩ := forall₂_mem_right hS.files_rel r hr
    obtain ⟨hrel, _, _, _, pr', hpr'mem, hpr'id, hpr'path⟩ := hmatch
    have hpreq : pr = pr' := by
      refine List.inj_on_of_nodup_map hS.ids_nodup hprmem hpr'mem ?_
      rw [hprid, hpr'id, hcond.1]
    have hpp : pf.1 = pp := by rw [← hpr'path, ← hpreq, hprpath]
    refine hfresh (List.mem_map.mpr ⟨pf, hpf, ?_⟩)
    show pf.1 ++ "/" ++ pf.2.relativePath = pp ++ "/" ++ f.relativePath
    rw [hpp, ← hrel, hcond.2]
  by_cases hb : s.hasBlob (hashB f.content) = true
  · have h1 : (packOneFile hashB compress pid (s, dedup) f).1 =
        s.insertFile ⟨pid, f.relativePath, hashB f.content, f.mode, f.mtime⟩ := by
      simp [packOneFile, hb]
    rw [h1]
    have happend := insertFile_files_of_fresh s
      ⟨pid, f.relativePath, hashB f.content, f.mode, f.mtime⟩
      (hnoconf s rfl)
    refine ⟨⟨?_, ?_, ?_, ?_, ?_, ?_⟩, insertFile_packages _ _, insertFile_nextId _ _⟩
    · rw [insertFile_packages]; exact hS.ids_nodup
    · rw [insertFile_packages, insertFile_nextId]; exact hS.ids_lt
    · intro row hrow
      rw [insertFile_blobs] at hrow
      obtain ⟨pf, hpf, hrc⟩ := hS.blobs_src row hrow
      exact ⟨pf, List.mem_append_left _ hpf, hrc⟩
    · intro pf hpf
      rw [insertFile_hasBlob]
      rcases List.mem_append.mp hpf with hpf | hpf
      · exact hS.conts_has pf hpf
      · rw [List.mem_singleton.mp hpf]; exact hb
    · rw [insertFile_blobs]; exact hS.blobs_nodup
    · rw [insertFile_packages, happend]
      refine List.rel_append ?_ ?_
      · exact hS.files_rel
      · exact List.Forall₂.cons
          ⟨rfl, rfl, rfl, rfl, pr, hprmem, hprid, hprpath⟩ List.Forall₂.nil
  · rw [Bool.not_eq_true] at hb
    have h1 : (packOneFile hashB compress pid (s, dedup) f).1 =
        (s.insertBlob (mkBlobRow hashB compress f.content)).insertFile
          ⟨pid, f.relativePath, hashB f.content, f.mode, f.mtime⟩ := by
      simp [packOneFile, hb, mkBlobRow]
    rw [h1]
    have hfreshblobs :
        (s.insertBlob (mkBlobRow hashB compress f.content)).blobs =
          s.blobs ++ [mkBlobRow hashB compress f.content] :=
      insertBlob_blobs_of_fresh s _ hb
    have hhashfresh : ∀ r ∈ s.blobs, r.hash ≠ hashB f.content := by
      intro r hr heq
      have hhas : s.hasBlob (hashB f.content) = true := by
        unfold Store.hasBlob
        rw [List.any_eq_true]
        exact ⟨r, hr, by simp [heq]⟩
      rw [hb] at hhas
      exact Bool.noConfusion hhas
    have happend := insertFile_files_of_fresh
      (s.insertBlob (mkBlobRow hashB compress f.content))
      ⟨pid, f.relativePath, hashB f.content, f.mode, f.mtime⟩
      (hnoconf _ (insertBlob_files _ _))
    refine ⟨⟨?_, ?_, ?_, ?_, ?_, ?_⟩, ?_, ?_⟩
    · rw [insertFile_packages, insertBlob_packages]; exact hS.ids_nodup
    · rw [insertFile_packages, insertBlob_packages, insertFile_nextId,
        insertBlob_nextId]
      exact hS.ids_lt
    · intro row hrow
      rw [insertFile_blobs, hfreshblobs] at hrow
      rcases List.mem_append.mp hrow with hrow | hrow
      · obtain ⟨pf, hpf, hrc⟩ := hS.blobs_src row hrow
        exact ⟨pf, List.mem_append_left _ hpf, hrc⟩
      · exact ⟨(pp, f), List.mem_append_right _ (List.mem_singleton_self _),
          List.mem_singleton.mp hrow⟩
    · intro pf hpf
      rw [insertFile_hasBlob]
      rcases List.mem_append.mp hpf with hpf | hpf
      · exact insertBlob_hasBlob_mono s _ _ (hS.conts_has pf hpf)
      · rw [List.mem_singleton.mp hpf]
        unfold Store.hasBlob
        rw [hfreshblobs, List.any_eq_true]
        exact ⟨mkBlobRow hashB compress f.content,
          List.mem_append_right _ (List.mem_singleton_self _),
          by simp [mkBlobRow]⟩
    · rw [insertFile_blobs, hfreshblobs, List.map_append]
      rw [List.nodup_append]
      refine ⟨hS.blobs_nodup, List.nodup_singleton _, ?_⟩
      intro a ha hb'
      simp only [List.map_cons, List.map_nil, List.mem_singleton] at hb'
      obtain ⟨r, hr, hra⟩ := List.mem_map.mp ha
      refine hhashfresh r hr ?_
      rw [hra, hb']
      rfl
    · rw [insertFile_packages, insertBlob_packages, happend, insertBlob_files]
      refine List.rel_append hS.files_rel ?_
      exact List.Forall₂.cons
        ⟨rfl, rfl, rfl, rfl, pr, hprmem, hprid, hprpath⟩ List.Forall₂.nil
    · rw [insertFile_packages, insertBlob_packages]
    · rw [insertFile_nextId, insertBlob_nextId]

/-- The inner pack loop over one package's files preserves the strong
invariant when the joined paths involved are distinct, leaving the
packages table and id counter untouched. -/
theorem packFilesLoop_strong (hashB : Bytes → String)
    (compress : Bytes → Bytes) (pid : Nat) (pp : String)
    (fs : List FileEntry) :
    ∀ (done : List (String × FileEntry)) (s : Store) (dedup : Nat),
      PackStrong hashB compress done s →
      (∃ pr ∈ s.packages, pr.id = pid ∧ pr.path = pp) →
      ((done ++ fs.map (fun f => (pp, f))).map taggedJoined).Nodup →
      PackStrong hashB compress (done ++ fs.map (fun f => (pp, f)))
        (fs.foldl (packOneFile hashB compress pid) (s, dedup)).1
      ∧ (fs.foldl (packOneFile hashB compress pid) (s, dedup)).1.packages
          = s.packages
      ∧ (fs.foldl (packOneFile hashB compress pid) (s, dedup)).1.nextId
          = s.nextId := by
  induction fs with
  | nil =>
      intro done s dedup hS _ _
      exact ⟨by simpa using hS, rfl, rfl⟩
  | cons f rest ih =>
      intro done s dedup hS hpr hnd
      have hnd' : (done.map taggedJoined ++ (taggedJoined (pp, f) ::
          (rest.map (fun g => (pp, g))).map taggedJoined)).Nodup := by
        simpa only [List.map_append, List.map_cons] using hnd
      have hcons := List.nodup_middle.mp hnd'
      rw [List.nodup_cons] at hcons
      have hfresh : taggedJoined (pp, f) ∉ done.map taggedJoined := by
        intro hmem
        exact hcons.1 (List.mem_append_left _ hmem)
      obtain ⟨hS₁, hpkgs₁, hnext₁⟩ :=
        packOneFile_strong hashB compress done s pid pp dedup f hS hpr hfresh
      have hpr₁ : ∃ pr ∈ (packOneFile hashB compress pid (s, dedup) f).1.packages,
          pr.id = pid ∧ pr.path = pp := by
        rw [hpkgs₁]; exact hpr
      have hnd₁ : (((done ++ [(pp, f)]) ++ rest.map (fun g => (pp, g))).map
          taggedJoined).Nodup := by
        have heq : (done ++ [(pp, f)]) ++ rest.map (fun g => (pp, g)) =
            done ++ (pp, f) :: rest.map (fun g => (pp, g)) := by
          simp
        rw [heq]
        simpa only [List.map_append, List.map_cons] using hnd'
      obtain ⟨hS₂, hpkgs₂, hnext₂⟩ := ih (done ++ [(pp, f)])
        (packOneFile hashB compress pid (s, dedup) f).1
        (packOneFile hashB compress pid (s, dedup) f).2 hS₁ hpr₁ hnd₁
      refine ⟨?_, ?_, ?_⟩
      · have : done ++ (f :: rest).map (fun g => (pp, g)) =
            (done ++ [(pp, f)]) ++ rest.map (fun g => (pp, g)) := by simp
        rw [this]
        simpa [List.foldl_cons] using hS₂
      · rw [List.foldl_cons]
        rw [show (packOneFile hashB compress pid (s, dedup) f) =
          ((packOneFile hashB compress pid (s, dedup) f).1,
            (packOneFile hashB compress pid (s, dedup) f).2) from rfl] at hpkgs₂ ⊢
        rw [hpkgs₂, hpkgs₁]
      · rw [List.foldl_cons]
        rw [show (packOneFile hashB compress pid (s, dedup) f) =
          ((packOneFile hashB compress pid (s, dedup) f).1,
            (packOneFile hashB compress pid (s, dedup) f).2) from rfl] at hnext₂ ⊢
        rw [hnext₂, hnext₁]

/-- Fact: `joinedPaths` unfolds one package at a time. -/
theorem joinedPaths_cons (p : PackageWithFiles)
    (rest : List PackageWithFiles) :
    joinedPaths (p :: rest) =
      (p.files.map (fun f => (p.path, f))).map taggedJoined
        ++ joinedPaths rest := by
  simp [joinedPaths, taggedFiles]

/-- The outer pack loop preserves the strong invariant over all processed
packages, given distinct joined paths. -/
theorem packFilesOuter_strong (hashB : Bytes → String)
    (compress : Bytes → Bytes) (pkgs : List PackageWithFiles) :
    ∀ (done : List (String × FileEntry)) (s : Store) (dedup : Nat),
      PackStrong hashB compress done s →
      ((done.map taggedJoined) ++ joinedPaths pkgs).Nodup →
      PackStrong hashB compress (done ++ taggedFiles pkgs)
        (pkgs.foldl (packOnePackage hashB compress) (s, dedup)).1 := by
  induction pkgs with
  | nil =>
      intro done s dedup hS _
      simpa [taggedFiles] using hS
  | cons p rest ih =>
      intro done s dedup hS hnd
      obtain ⟨hS₁, hpr₁, _⟩ := packStrong_insertPackage hashB compress done s
        p.name p.version p.path hS
      have hnd₁ : ((done ++ p.files.map (fun f => (p.path, f))).map
          taggedJoined).Nodup := by
        rw [joinedPaths_cons] at hnd
        rw [List.map_append]
        refine List.Nodup.sublist ?_ hnd
        rw [← List.append_assoc]
        exact List.sublist_append_left _ _
      obtain ⟨hS₂, hpkgs₂, _⟩ := packFilesLoop_strong hashB compress
        (s.insertPackage p.name p.version p.path).1 p.path p.files done
        (s.insertPackage p.name p.version p.path).2 dedup hS₁ hpr₁ hnd₁
      have hnd₂ : (((done ++ p.files.map (fun f => (p.path, f))).map
          taggedJoined) ++ joinedPaths rest).Nodup := by
        rw [joinedPaths_cons] at hnd
        rw [List.map_append, List.append_assoc]
        exact hnd
      have h3 := ih (done ++ p.files.map (fun f => (p.path, f)))
        (p.files.foldl
          (packOneFile hashB compress (s.insertPackage p.name p.version p.path).1)
          ((s.insertPackage p.name p.version p.path).2, dedup)).1
        (p.files.foldl
          (packOneFile hashB compress (s.insertPackage p.name p.version p.path).1)
          ((s.insertPackage p.name p.version p.path).2, dedup)).2 hS₂ hnd₂
      have hshape : done ++ taggedFiles (p :: rest) =
          (done ++ p.files.map (fun f => (p.path, f))) ++ taggedFiles rest := by
        simp [taggedFiles]
      rw [hshape]
      simpa [packOnePackage, List.foldl_cons] using h3

/-- The pack transaction establishes the strong invariant over the whole
tree. -/
theorem packFiles_strong (hashB : Bytes → String) (compress : Bytes → Bytes)
    (pkgs : List PackageWithFiles)
    (hnodup : (joinedPaths pkgs).Nodup) :
    PackStrong hashB compress (taggedFiles pkgs)
      (packFiles hashB compress pkgs).1 := by
  have hinit : PackStrong hashB compress [] Store.empty := by
    refine ⟨?_, ?_, ?_, ?_, ?_, ?_⟩ <;> simp [Store.empty]
  have := packFilesOuter_strong hashB compress pkgs [] Store.empty 0 hinit
    (by simpa using hnodup)
  simpa [packFiles] using this

/-- Looking up a packages row by id finds it when ids are distinct. -/
theorem find?_id_of_nodup (l : List PkgRow)
    (hn : (l.map (fun r => r.id)).Nodup) (r : PkgRow) (hr : r ∈ l) :
    l.find? (fun p => p.id == r.id) = some r := by
  induction l with
  | nil => simp at hr
  | cons a rest ih =>
      rw [List.map_cons, List.nodup_cons] at hn
      by_cases ha : (a.id == r.id) = true
      · rw [List.find?_cons_of_pos (p := fun p => p.id == r.id) rest ha]
        rcases List.mem_cons.mp hr with hr | hr
        · rw [hr]
        · exfalso
          rw [beq_iff_eq] at ha
          exact hn.1 (List.mem_map.mpr ⟨r, hr, ha.symm⟩)
      · rw [List.find?_cons_of_neg (p := fun p => p.id == r.id) rest ha]
        rcases List.mem_cons.mp hr with hr | hr
        · exfalso
          rw [hr] at ha
          simp at ha
        · exact ih hn.2 hr

/-- The `getAllFiles` join resolves each stored row to its package path,
turning the files-table correspondence into the joined-row
correspondence. -/
theorem filterMap_join_forall₂ (hashB : Bytes → String)
    (pkgsL : List PkgRow) (hn : (pkgsL.map (fun r => r.id)).Nodup) :
    ∀ {done : List (String × FileEntry)} {files : List FileRow},
      List.Forall₂ (fileRowMatches hashB pkgsL) done files →
      List.Forall₂ (joinedRowMatches hashB) done
        (files.filterMap (fun f =>
          (pkgsL.find? (fun p => p.id == f.packageId)).map (fun p =>
            ⟨f.packageId, f.relativePath, f.blobHash, f.mode, f.mtime,
              p.path⟩))) := by
  intro done files h
  induction h with
  | nil => exact List.Forall₂.nil
  | cons hab htail ih =>
      obtain ⟨h1, h2, h3, h4, pr, hprmem, hprid, hprpath⟩ := hab
      rename_i pf fr _ _
      have hfind : pkgsL.find? (fun p => p.id == fr.packageId) = some pr := by
        rw [← hprid]
        exact find?_id_of_nodup pkgsL hn pr hprmem
      rw [List.filterMap_cons, hfind]
      exact List.Forall₂.cons ⟨h1, h2, h3, h4, hprpath⟩ ih

/-- After pack, `getAllFiles` lists exactly the tree's files in order,
joined with their packages' paths. -/
theorem getAllFiles_of_strong (hashB : Bytes → String)
    (compress : Bytes → Bytes) (done : List (String × FileEntry)) (s : Store)
    (hS : PackStrong hashB compress done s) :
    List.Forall₂ (joinedRowMatches hashB) done s.getAllFiles :=
  filterMap_join_forall₂ hashB s.packages hS.ids_nodup hS.files_rel

/-- A `filterMap` that succeeds pointwise along a `Forall₂` is the map of
the left-hand list. -/
theorem filterMap_eq_map_of_forall₂ {α β γ : Type} {R : α → β → Prop}
    (g : β → Option γ) (e : α → γ) :
    ∀ {l₁ : List α} {l₂ : List β}, List.Forall₂ R l₁ l₂ →
      (∀ a ∈ l₁, ∀ b, R a b → g b = some (e a)) →
      l₂.filterMap g = l₁.map e := by
  intro l₁ l₂ h
  induction h with
  | nil => intro _; rfl
  | cons hab htail ih =>
      intro hp
      rename_i a b _ _
      rw [List.filterMap_cons, hp a (List.mem_cons_self _ _) b hab,
        List.map_cons]
      rw [ih (fun x hx c hc => hp x (List.mem_cons_of_mem _ hx) c hc)]

/-- C1.  Round-trip bit-identity: packing a tree whose joined paths are
distinct (a filesystem tree), with a digest collision-free on its
contents and a codec satisfying `decompress ∘ compress = id`, and then
extracting into a clean output directory, writes exactly the tree's files
— same joined relative paths, bytewise-identical contents — each
`chmod`ed to the low 9 bits of its original nonzero mode. -/
theorem c1_roundtrip (hashB : Bytes → String)
    (compress decompress : Bytes → Bytes) (out : String)
    (pkgs : List PackageWithFiles)
    (hdec : ∀ b, decompress (compress b) = b)
    (hinj : ∀ c₁ ∈ treeContents pkgs, ∀ c₂ ∈ treeContents pkgs,
      hashB c₁ = hashB c₂ → c₁ = c₂)
    (hnodup : (joinedPaths pkgs).Nodup)
    (hmode : ∀ pf ∈ taggedFiles pkgs, pf.2.mode ≠ 0) :
    extractFiles decompress (packFiles hashB compress pkgs).1 out =
      ⟨(expectedWrites out pkgs).length,
        ((expectedWrites out pkgs).map (fun w => w.content.length)).sum,
        expectedWrites out pkgs⟩ := by
  have hS := packFiles_strong hashB compress pkgs hnodup
  have hJ := getAllFiles_of_strong hashB compress (taggedFiles pkgs)
    (packFiles hashB compress pkgs).1 hS
  have W := packFiles_weak hashB compress pkgs
  have hpoint : ∀ pf ∈ taggedFiles pkgs, ∀ jr, joinedRowMatches hashB pf jr →
      pureWrite decompress (packFiles hashB compress pkgs).1 out jr =
        some ⟨out ++ "/" ++ pf.1 ++ "/" ++ pf.2.relativePath, pf.2.content,
          some (Nat.land pf.2.mode 511)⟩ := by
    intro pf hpf jr hmatch
    obtain ⟨h1, h2, h3, h4, h5⟩ := hmatch
    have hcmem : pf.2.content ∈ treeContents pkgs :=
      List.mem_map.mpr ⟨pf, hpf, rfl⟩
    have hhas := W.conts_has pf.2.content hcmem
    unfold Store.hasBlob at hhas
    rw [List.any_eq_true] at hhas
    obtain ⟨row₀, hrow₀, hkey₀⟩ := hhas
    have hsome : ((packFiles hashB compress pkgs).1.blobs.find?
        (fun r => r.hash == hashB pf.2.content)).isSome := by
      rw [List.find?_isSome]
      exact ⟨row₀, hrow₀, hkey₀⟩
    obtain ⟨row, hrow⟩ := Option.isSome_iff_exists.mp hsome
    have hrowmem := List.mem_of_find?_eq_some hrow
    have hrowkey : row.hash = hashB pf.2.content := by
      simpa using List.find?_some hrow
    obtain ⟨c', hc', hrowc'⟩ := W.blobs_src row hrowmem
    have hcc : c' = pf.2.content := by
      refine hinj c' hc' pf.2.content hcmem ?_
      have : hashB c' = row.hash := by rw [hrowc']; rfl
      rw [this, hrowkey]
    have hblob : (packFiles hashB compress pkgs).1.getBlob jr.blobHash =
        some (compress pf.2.content) := by
      unfold Store.getBlob
      rw [h2, hrow, hrowc', hcc]
      rfl
    unfold pureWrite
    rw [hblob]
    simp only [Option.map_some', hdec]
    rw [h1, h5]
    simp [h3, hmode pf hpf]
  have hwrites : ((packFiles hashB compress pkgs).1.getAllFiles).filterMap
      (pureWrite decompress (packFiles hashB compress pkgs).1 out) =
      expectedWrites out pkgs := by
    rw [filterMap_eq_map_of_forall₂
      (pureWrite decompress (packFiles hashB compress pkgs).1 out)
      (fun pf => ⟨out ++ "/" ++ pf.1 ++ "/" ++ pf.2.relativePath,
        pf.2.content, some (Nat.land pf.2.mode 511)⟩) hJ hpoint]
    rfl
  have hlen : ((packFiles hashB compress pkgs).1.getAllFiles).length =
      (expectedWrites out pkgs).length := by
    rw [← hJ.length_eq]
    simp [expectedWrites]
  rw [extractFiles_spec, hwrites, hlen]

/-- Witness for C1 on the demo tree with the demo digest and codec. -/
theorem c1_roundtrip_witness :
    extractFiles demoDecompress (packFiles demoHash demoCompress demoTree).1 "out" =
      ⟨(expectedWrites "out" demoTree).length,
        ((expectedWrites "out" demoTree).map (fun w => w.content.length)).sum,
        expectedWrites "out" demoTree⟩ :=
  c1_roundtrip demoHash demoCompress demoDecompress "out" demoTree
    (fun _ => rfl) (by decide) (by decide) (by decide)

/-- Witness for C2 on the demo tree: the first file's digest row. -/
theorem c2_digest_correctness_witness :
    (∃ row ∈ (packFiles demoHash demoCompress demoTree).1.blobs,
        row.hash = demoHash [104, 105]
          ∧ demoHash (demoDecompress row.content) = demoHash [104, 105])
      ∧ ((packFiles demoHash demoCompress demoTree).1.blobs.map
          (fun r => r.hash)).Nodup :=
  ⟨(c2_digest_correctness demoHash demoCompress demoDecompress demoTree
      (fun _ => rfl)).1 ⟨1, "index.js", demoHash [104, 105], 420, 5⟩ (by decide),
    (c2_digest_correctness demoHash demoCompress demoDecompress demoTree
      (fun _ => rfl)).2⟩

/-- Witness for C3 on the demo tree's duplicated content `[1, 2]`. -/
theorem c3_deduplication_witness :
    (packFiles demoHash demoCompress demoTree).1.blobs.filter
        (fun r => r.hash == demoHash [1, 2]) =
        [mkBlobRow demoHash demoCompress [1, 2]]
      ∧ (treeContents demoTree).count [1, 2] - 1 ≤
        (packFiles demoHash demoCompress demoTree).2 :=
  c3_deduplication demoHash demoCompress demoTree [1, 2] (by decide) (by decide)

/-- Witness for C4 on the demo store with the fresh digest `"h2"`. -/
theorem c4_insertBlob_idempotent_witness :
    (demoStore.insertBlob ⟨"h2", [9], 1, 1⟩).insertBlob ⟨"h2", [8, 8], 2, 2⟩ =
        demoStore.insertBlob ⟨"h2", [9], 1, 1⟩
      ∧ (demoStore.insertBlob ⟨"h2", [9], 1, 1⟩).blobs.filter
          (fun r => r.hash == "h2") = [⟨"h2", [9], 1, 1⟩] :=
  c4_insertBlob_idempotent demoStore "h2" [9] [8, 8] 1 1 2 2 (by decide)

/-- Witness for C5 on the demo store's existing package triple. -/
theorem c5_insertPackage_upsert_witness :
    demoStore.insertPackage "a" "1.0.0" "a" =
        ((⟨1, "a", "1.0.0", "a"⟩ : PkgRow).id, demoStore)
      ∧ (⟨1, "a", "1.0.0", "a"⟩ : PkgRow).name = "a"
      ∧ (⟨1, "a", "1.0.0", "a"⟩ : PkgRow).version = "1.0.0"
      ∧ (⟨1, "a", "1.0.0", "a"⟩ : PkgRow).path = "a" :=
  (c5_insertPackage_upsert demoStore "a" "1.0.0" "a").1
    ⟨1, "a", "1.0.0", "a"⟩ (by decide)

/-- Witness for C7: a failing parse emits nothing; an empty manifest gets
both defaults. -/
theorem c7_manifest_tolerance_witness :
    scanPackage demoParseFail (demoPkgDir, "lodash") = none
      ∧ scanPackage demoParseEmpty (demoPkgDir, "pkg") =
        some ⟨"unknown", "0.0.0", "pkg", walkNode demoPkgDir⟩ :=
  ⟨(c7_manifest_tolerance demoParseFail demoPkgDir "lodash"
      [("package.json", FsNode.file 420 [1] 0)] 420 0 [1] []).1 rfl,
    (c7_manifest_tolerance demoParseEmpty demoPkgDir "pkg"
      [("package.json", FsNode.file 420 [1] 0)] 420 0 [1] []).2.2 rfl rfl⟩

/-- Witness for C8: the pnpm demo root routes to the symlink-farm
enumeration; a root with no `.pnpm` entry routes to the flat one. -/
theorem c8_layout_detection_witness :
    scanPackageDirs pnpmDemoRoot = findPnpmPackageDirs pnpmDemoRoot
      ∧ scanPackageDirs [("lodash", demoPkgDir)] =
        some (findPackageDirs [("lodash", demoPkgDir)]) :=
  ⟨(c8_layout_detection pnpmDemoRoot).1 _ rfl,
    (c8_layout_detection [("lodash", demoPkgDir)]).2.1 rfl⟩

/-- Witness for C10 on the demo store and filesystem: one modified row,
buckets summing to the row count. -/
theorem c10_status_partition_witness :
    ([] : List String).length + (["a/index.js"] : List String).length + 0 =
        (demoStore.getAllFiles).length
      ∧ ([] : List String) = [] :=
  c10_status_partition demoHash demoStatusFs "nm" demoStore
    ⟨[], [], ["a/index.js"], 0⟩ (by rfl)

end Mohyung
